import Mathlib

/-!
Formal model of the atzentis-cli core: task scheduler (wave construction,
cycle detection, estimates), session store (SQLite-backed session manager),
task loader (phase metadata overlay), hook runner, and the run/resume
executors.  Each definition is a shallow embedding of the corresponding
TypeScript function; theorems at the end settle the specification claims.
-/

namespace Atzentis

/-! ## Data model (config/schemas.ts) -/

/-- Task status enumeration, `TaskStatusSchema` in `config/schemas.ts`:
`['pending', 'in_progress', 'completed', 'failed', 'blocked']`. -/
inductive TaskStatus
  | pending
  | in_progress
  | completed
  | failed
  | blocked
deriving DecidableEq, Repr

/-- Priority enumeration `['P0','P1','P2','P3']` from `config/schemas.ts`. -/
inductive Priority
  | P0
  | P1
  | P2
  | P3
deriving DecidableEq, Repr

/-- The fields of `TaskSchema` (config/schemas.ts) that the scheduler,
loader and executors read.  Free-form prompt-only fields (`requirements`,
`businessRules`, `testingRequirements`, `skills`) are omitted: no claim
mentions them and no modelled function reads them. -/
structure Task where
  id : String
  name : String := ""
  description : Option String := none
  status : TaskStatus := .pending
  parallelGroup : Nat := 1
  dependencies : List String := []
  files : List String := []
  acceptanceCriteria : List String := []
  estimate : Option String := none
  priority : Option Priority := none
deriving DecidableEq, Repr

/-- A checkpoint row (`CheckpointSchema` / the `checkpoints` table).
Timestamps are modelled as naturals supplied by the caller (`new Date()`
in the source). -/
structure Checkpoint where
  timestamp : Nat
  taskId : String
  status : TaskStatus
  prLink : Option String := none
  duration : Option Nat := none
  error : Option String := none
deriving DecidableEq, Repr

/-- The session fields read and written by `createSession`, `startTask` and
`saveCheckpoint` in `core/session-manager.ts`.  The `worktrees`, `branches`,
`prs` and `errors` maps are updated by separate register functions that do
not touch these fields, so they are not carried here. -/
structure SessionState where
  pendingTasks : List String
  currentTask : Option String
  completedTasks : List String
  failedTasks : List String
  checkpoints : List Checkpoint
  lastCheckpointAt : Option Nat
deriving DecidableEq, Repr

/-! ## Session store operations (core/session-manager.ts) -/

/-- `SessionManager.createSession`: fresh session with
`pendingTasks = tasks` and all other tracked fields empty. -/
def createSession (tasks : List String) : SessionState :=
  { pendingTasks := tasks
    currentTask := none
    completedTasks := []
    failedTasks := []
    checkpoints := []
    lastCheckpointAt := none }

/-- `SessionManager.startTask`: set `currentTask` and filter the id out of
`pendingTasks`. -/
def startTask (s : SessionState) (taskId : String) : SessionState :=
  { s with
    currentTask := some taskId
    pendingTasks := s.pendingTasks.filter (fun t => t ≠ taskId) }

/-- `SessionManager.saveCheckpoint`: append a checkpoint row, update
`lastCheckpointAt`, clear `currentTask`, and push the id onto
`completedTasks` when the status is `completed`, onto `failedTasks` when it
is `failed`, and onto neither otherwise. -/
def saveCheckpoint (s : SessionState) (taskId : String) (status : TaskStatus)
    (now : Nat) (prLink : Option String := none) (duration : Option Nat := none)
    (error : Option String := none) : SessionState :=
  { s with
    checkpoints := s.checkpoints ++
      [{ timestamp := now, taskId := taskId, status := status,
         prLink := prLink, duration := duration, error := error }]
    lastCheckpointAt := some now
    currentTask := none
    completedTasks :=
      if status = .completed then s.completedTasks ++ [taskId] else s.completedTasks
    failedTasks :=
      if status = .failed then s.failedTasks ++ [taskId] else s.failedTasks }

/-! ## Engine results and the executor's completion decision
(commands/run.ts `TaskExecutor.executeTask`, resume `ResumeExecutor.executeTask`) -/

/-- `ExecutionResultSchema` from `config/schemas.ts`. -/
structure ExecutionResult where
  success : Bool
  output : String := ""
  exitCode : Int := 0
  duration : Nat := 0
  completed : Bool
  error : Option String := none
deriving DecidableEq, Repr

/-- The executor's branch on the engine result, from `run.ts` line 305 and
`resume` line 227: `if (!result.success || !result.completed) throw`.
Returns the checkpoint status the task receives: `completed` exactly when
the guard passes, `failed` when the thrown error is checkpointed by the
catch block. -/
def executeTaskOutcome (r : ExecutionResult) : TaskStatus :=
  if ¬ r.success ∨ ¬ r.completed then .failed else .completed

/-! ## Scheduler (core/task-scheduler.ts, `TaskScheduler`) -/

/-- Error taxonomy of `buildExecutionWaves`.  The source throws `Error`
objects with distinguishing messages; we carry the data those messages
interpolate.  `fuelExhausted` is an artefact of the fuel-indexed embedding
of the recursive DFS and is proved unreachable for the fuel the embedding
supplies. -/
inductive SchedulerErr
  | unknownDep (taskId dep : String)
  | circular (path : List String)
  | unschedulable (remaining : List String)
  | fuelExhausted
deriving DecidableEq, Repr

/-- The dependency-validation loop of `buildExecutionWaves` (lines 17-24):
scan tasks in order, and inside each its dependencies in order, returning
the first dependency that is not a member of the id set. -/
def firstUnknownDep (ids : List String) : List Task → Option (String × String)
  | [] => none
  | t :: ts =>
    match t.dependencies.find? (fun d => ¬ ids.contains d) with
    | some d => some (t.id, d)
    | none => firstUnknownDep ids ts

/-- The `taskMap` lookup of `detectCircularDependencies`:
`new Map(tasks.map((t) => [t.id, t]))`, where a later entry for the same id
overwrites an earlier one, so lookup returns the last task with the id. -/
def taskLookup (tasks : List Task) (taskId : String) : Option Task :=
  tasks.reverse.find? (fun t => t.id = taskId)

/-- The recursive `dfs` of `detectCircularDependencies` (lines 115-134).
`stack` is the recursion stack (in the source a shared mutable set from
which each call removes its node before returning; passing it downward
unchanged to siblings models exactly that add-then-delete discipline),
`visited` the global visited set threaded through the traversal, and
`path` the accumulator printed on a cycle.  `fuel` bounds the recursion
depth; the caller supplies more fuel than there are reachable ids, and
`fuelExhausted` is proved unreachable. -/
def dfs (tasks : List Task) : Nat → String → List String → List String →
    List String → Except SchedulerErr (List String)
  | 0, _, _, _, _ => .error .fuelExhausted
  | fuel + 1, taskId, path, stack, visited =>
    if stack.contains taskId then
      .error (.circular (path ++ [taskId]))
    else if visited.contains taskId then
      .ok visited
    else
      match taskLookup tasks taskId with
      | none => .ok (visited ++ [taskId])
      | some task =>
        task.dependencies.foldlM
          (fun vis dep => dfs tasks fuel dep (path ++ [taskId])
            (stack ++ [taskId]) vis)
          (visited ++ [taskId])

/-- The driver loop of `detectCircularDependencies` (lines 136-140): run
`dfs` from every not-yet-visited task, threading the visited set. -/
def detectCircularDependencies (tasks : List Task) (fuel : Nat) :
    Except SchedulerErr (List String) :=
  tasks.foldlM
    (fun visited t =>
      if visited.contains t.id then pure visited
      else dfs tasks fuel t.id [] [] visited)
    []

/-- Every id the DFS can ever visit: task ids and dependency ids. -/
def dfsUniverse (tasks : List Task) : List String :=
  tasks.map Task.id ++ tasks.flatMap Task.dependencies

/-- Fuel sufficient for `dfs`: one more than the number of ids that can
ever enter the visited set (task ids and dependency ids). -/
def dfsFuel (tasks : List Task) : Nat :=
  (dfsUniverse tasks).length + 1

/-- The dependency edge relation of a task list: `a` depends on `b`. -/
def depEdge (tasks : List Task) (a b : String) : Prop :=
  ∃ t ∈ tasks, t.id = a ∧ b ∈ t.dependencies

/-- A dependency cycle: some id reaches itself through at least one
edge. -/
def hasCycle (tasks : List Task) : Prop :=
  ∃ x, Relation.TransGen (depEdge tasks) x x

/-- DFS colouring invariant, closure half: every finished ("black") node —
visited and not on the recursion stack — has all its successors black. -/
def BlackClosed (tasks : List Task) (stack visited : List String) : Prop :=
  ∀ v ∈ visited, v ∉ stack → ∀ w, depEdge tasks v w →
    w ∈ visited ∧ w ∉ stack

/-- DFS colouring invariant, acyclicity half: no dependency cycle passes
through a black node. -/
def BlackAcyclic (tasks : List Task) (stack visited : List String) : Prop :=
  ∀ v ∈ visited, v ∉ stack → ¬ Relation.TransGen (depEdge tasks) v v

/-- Line 80 of `buildWavesWithDependencies`:
`task.dependencies.every((dep) => allCompleted.has(dep))`. -/
def depsSatisfied (allCompleted : List String) (t : Task) : Bool :=
  t.dependencies.all (fun dep => allCompleted.contains dep)

/-- One element of the backwards sweep inside `buildWavesWithDependencies`
(lines 78-86).  The source iterates `remaining` from the last index to the
first, pushing eligible tasks onto `currentWave` and splicing them out;
processing elements right-to-left with `foldr` reproduces both the
resulting wave order and the preserved order of the untouched remainder. -/
def sweepStep (allCompleted : List String) (t : Task)
    (acc : List Task × List Task) : List Task × List Task :=
  if depsSatisfied allCompleted t then
    (acc.1, acc.2 ++ [t])
  else
    (t :: acc.1, acc.2)

/-- The `while (remaining.length > 0)` loop of
`buildWavesWithDependencies` (lines 73-102).  Fuel is the initial length
of `remaining`; every successful sweep removes at least one task, so the
fuel never runs out for that choice. -/
def buildWavesGo : Nat → List Task → List String →
    Except SchedulerErr (List (List Task))
  | 0, remaining, _ =>
    if remaining.isEmpty then .ok [] else .error .fuelExhausted
  | fuel + 1, remaining, allCompleted =>
    if remaining.isEmpty then .ok []
    else
      if (remaining.foldr (sweepStep allCompleted) ([], [])).2.isEmpty then
        .error (.unschedulable (remaining.map Task.id))
      else
        match buildWavesGo fuel
            (remaining.foldr (sweepStep allCompleted) ([], [])).1
            (allCompleted ++
              ((remaining.foldr (sweepStep allCompleted) ([], [])).2.map
                Task.id)) with
        | .error e => .error e
        | .ok waves =>
          .ok ((remaining.foldr (sweepStep allCompleted) ([], [])).2 :: waves)

/-- `buildWavesWithDependencies(tasks, completed)` with its fuel fixed. -/
def buildWavesWithDependencies (tasks : List Task) (completed : List String) :
    Except SchedulerErr (List (List Task)) :=
  buildWavesGo tasks.length tasks completed

/-- The per-group loop of `buildExecutionWaves` (lines 44-57): for each
group number in ascending order, build that group's waves against the
accumulated completed set, append the nonempty waves (the embedding's
`buildWavesGo` only ever emits nonempty waves) and mark their tasks
completed. -/
def groupLoop (tasks : List Task) : List Nat → List String →
    Except SchedulerErr (List (List Task))
  | [], _ => .ok []
  | g :: gs, completed =>
    match buildWavesWithDependencies
        (tasks.filter (fun t => t.parallelGroup = g)) completed with
    | .error e => .error e
    | .ok waves =>
      match groupLoop tasks gs (completed ++ (waves.flatten.map Task.id)) with
      | .error e => .error e
      | .ok rest => .ok (waves ++ rest)

/-- `TaskScheduler.buildExecutionWaves` (lines 13-60): empty shortcut,
unknown-dependency validation, cycle detection, then grouping by
`parallelGroup` (a JS `Map` keyed in first-appearance order whose key list
is then sorted numerically — the sorted deduplicated group list — with each
group's task array in input order, i.e. a filter) and the per-group wave
construction. -/
def buildExecutionWaves (tasks : List Task) :
    Except SchedulerErr (List (List Task)) :=
  if tasks.isEmpty then .ok []
  else
    match firstUnknownDep (tasks.map Task.id) tasks with
    | some (tid, dep) => .error (.unknownDep tid dep)
    | none =>
      match detectCircularDependencies tasks (dfsFuel tasks) with
      | .error e => .error e
      | .ok _ =>
        groupLoop tasks (((tasks.map Task.parallelGroup).dedup).insertionSort (· ≤ ·)) []

/-- Dependency soundness of a wave sequence relative to an
already-completed id set: every dependency of a wave's task is completed
before the wave runs, waves completing their tasks in order.  This is the
accumulator discipline of `buildExecutionWaves` itself. -/
def WavesDepsOK (completed : List String) : List (List Task) → Prop
  | [] => True
  | w :: rest =>
    (∀ t ∈ w, ∀ d ∈ t.dependencies, d ∈ completed) ∧
    WavesDepsOK (completed ++ w.map Task.id) rest

/-! ## Estimates (core/task-scheduler.ts lines 156-217) -/

/-- Digit-run accumulator for the numeric part of an estimate. -/
def digitsToNat (ds : List Char) : Nat :=
  ds.foldl (fun n c => 10 * n + (c.toNat - '0'.toNat)) 0

/-- Characters matched by the regex class `\s` (restricted to its ASCII
members; the Unicode space characters it also covers do not occur in
estimate strings). -/
def jsWhitespace (c : Char) : Bool :=
  c = ' ' || c = '\t' || c = '\n' || c = '\r' || c = '\x0b' || c = '\x0c'

/-- ASCII lower-casing, standing for `String.prototype.toLowerCase` on the
strings the code lower-cases (unit captures, ASCII identifiers); the two
agree on every string whose lower-casing is compared against an ASCII
word. -/
def asciiToLower (cs : List Char) : List Char :=
  cs.map (fun c =>
    if 'A'.toNat ≤ c.toNat ∧ c.toNat ≤ 'Z'.toNat then Char.ofNat (c.toNat + 32)
    else c)

/-- `String.prototype.startsWith`, via the character lists. -/
def jsStartsWith (s pre : String) : Bool :=
  pre.toList.isPrefixOf s.toList

/-- Addition of the exact rational values standing for JS numbers, written
with `mkRat` so that closed instances evaluate inside proofs; proved equal
to `+` below. -/
def jsAdd (a b : ℚ) : ℚ :=
  mkRat (a.num * b.den + b.num * a.den) (a.den * b.den)

/-- Multiplication counterpart of `jsAdd`; proved equal to `*` below. -/
def jsMul (a b : ℚ) : ℚ :=
  mkRat (a.num * b.num) (a.den * b.den)

/-- Subtraction counterpart of `jsAdd`; proved equal to `-` below. -/
def jsSub (a b : ℚ) : ℚ :=
  mkRat (a.num * b.den - b.num * a.den) (a.den * b.den)

/-- `Math.max` on the rational values; proved equal to `max` below. -/
def jsMax (a b : ℚ) : ℚ :=
  if a < b then b else a

/-- The `(?:\.\d+)?` part of the estimate regex: split the remainder after
the integer digits into the fraction digits (empty when no `.` plus at
least one digit follows) and the rest of the string. -/
def fracSplit (rest1 : List Char) : List Char × List Char :=
  match rest1 with
  | '.' :: r =>
    if (r.takeWhile Char.isDigit).isEmpty then ([], rest1)
    else (r.takeWhile Char.isDigit, r.dropWhile Char.isDigit)
  | _ => ([], rest1)

/-- The numeric capture's value: `parseFloat` of `"<int>.<frac>"` as an
exact rational. -/
def estimateValue (intPart fracPart : List Char) : ℚ :=
  mkRat (digitsToNat intPart * 10 ^ fracPart.length + digitsToNat fracPart)
    (10 ^ fracPart.length)

/-- The would-be unit capture: whatever follows the `\s*` run, already
lower-cased (the regex carries the `i` flag and the unit is compared
lower-cased). -/
def estimateUnitStr (rest2 : List Char) : String :=
  String.mk (asciiToLower (rest2.dropWhile (fun c => jsWhitespace c)))

/-- The regex test of `parseEstimate`:
`/^(\d+(?:\.\d+)?)\s*(h|d|hr|hrs|hour|hours|day|days)?$/i`.  The pattern is
anchored on both ends and no unit word starts with a digit, so the greedy
reading is the only possible match: a maximal digit run, an optional `.`
plus maximal digit run, whitespace, then exactly one of the unit words (or
nothing) up to the end.  Returns the captured numeric value (exact, as a
rational; `parseFloat` of such a literal only differs by float rounding,
which no claim depends on) and the lower-cased unit capture, `""` when the
optional group is absent. -/
def matchEstimate (s : String) : Option (ℚ × String) :=
  if (s.toList.takeWhile Char.isDigit).isEmpty then none
  else
    if estimateUnitStr (fracSplit (s.toList.dropWhile Char.isDigit)).2 ∈
        ["", "h", "d", "hr", "hrs", "hour", "hours", "day", "days"] then
      some (estimateValue (s.toList.takeWhile Char.isDigit)
          (fracSplit (s.toList.dropWhile Char.isDigit)).1,
        estimateUnitStr (fracSplit (s.toList.dropWhile Char.isDigit)).2)
    else none

/-- `TaskScheduler.parseEstimate` (lines 189-202): absent or non-matching
estimates yield 0 hours; a `d`-unit value is multiplied by 8 (8-hour
workday); the unit defaults to hours. -/
def parseEstimate : Option String → ℚ
  | none => 0
  | some s =>
    match matchEstimate s with
    | none => 0
    | some (value, unit) =>
      let unit' := if unit = "" then "h" else unit
      if jsStartsWith unit' "d" then jsMul value (mkRat 8 1) else value

/-- Exact decimal printer standing for the JS number-to-string conversion
(template interpolation) applied to the non-negative terminating decimals
the code prints (metadata estimates, hour totals); the fraction branch
falls back to a fraction rendering for values JS could not have produced
from decimal input. -/
def jsRatToString (q : ℚ) : String :=
  if q.den = 1 then toString q.num
  else
    match (List.range 40).find? (fun k => 10 ^ k % q.den = 0) with
    | some k =>
      let m := q.num.natAbs * (10 ^ k / q.den)
      let ds := (toString m).toList
      let sign := if q.num < 0 then "-" else ""
      if ds.length ≤ k then
        sign ++ "0." ++ String.mk (List.replicate (k - ds.length) '0') ++
          String.mk ds
      else
        sign ++ String.mk (ds.take (ds.length - k)) ++ "." ++
          String.mk (ds.drop (ds.length - k))
    | none => toString q.num ++ "/" ++ toString q.den

/-- `TaskScheduler.formatHours` (lines 207-217): days/hours rendering with
`Math.floor(hours / 8)` and the JS `%` remainder (equal to
`hours - 8 * floor(hours / 8)` for the non-negative values reaching it). -/
def formatHours (hours : ℚ) : String :=
  if 8 ≤ hours then
    let days : ℤ := hours.num / (8 * (hours.den : ℤ))
    let remainingHours : ℚ := jsSub hours (jsMul (mkRat 8 1) (mkRat days 1))
    if 0 < remainingHours then
      jsRatToString (mkRat days 1) ++ "d " ++ jsRatToString remainingHours ++ "h"
    else
      jsRatToString (mkRat days 1) ++ "d"
  else
    jsRatToString hours ++ "h"

/-- Wave duration from `calculateEstimatedDuration` (lines 163-168):
`waveHours` starts at 0 and takes the max with each task's parsed
estimate (parallel execution). -/
def waveHours (wave : List Task) : ℚ :=
  wave.foldl (fun acc t => jsMax acc (parseEstimate t.estimate)) 0

/-- Total duration accumulator of `calculateEstimatedDuration`
(line 177): the sum of the wave durations. -/
def totalWaveHours (waves : List (List Task)) : ℚ :=
  (waves.map waveHours).foldl jsAdd 0

/-- One breakdown entry of `calculateEstimatedDuration` (lines 170-175). -/
structure WaveEstimate where
  wave : Nat
  tasks : List String
  estimatedHours : ℚ
  parallel : Bool
deriving DecidableEq, Repr

/-- `TaskScheduler.calculateEstimatedDuration` (lines 156-184): build the
waves, compute each wave's max estimate and the formatted total. -/
def calculateEstimatedDuration (tasks : List Task) :
    Except SchedulerErr (String × List WaveEstimate) :=
  match buildExecutionWaves tasks with
  | .error e => .error e
  | .ok waves =>
    .ok (formatHours (totalWaveHours waves),
      waves.enum.map (fun p =>
        { wave := p.1 + 1
          tasks := p.2.map Task.id
          estimatedHours := waveHours p.2
          parallel := decide (1 < p.2.length) }))

/-! ## Task loader (core/task-loader.ts) -/

/-- Status values of a phase-metadata task entry
(`PhaseTaskEntrySchema.status`). -/
inductive MetaStatus
  | not_started
  | in_progress
  | completed
  | failed
  | blocked
deriving DecidableEq, Repr

/-- A task entry of a parsed, schema-valid `meta.json`
(`PhaseTaskEntrySchema`). -/
structure PhaseTaskEntry where
  id : String
  name : String := ""
  title : String := ""
  estimate : ℚ
  priority : Priority
  status : MetaStatus := .not_started
  dependencies : List String := []
deriving DecidableEq, Repr

/-- The `metaTaskMap` lookup of `loadTasks` (lines 74-79): entries are
`Map.set` by id in order, so a later entry for the same id overwrites an
earlier one. -/
def metaLookup (metaTasks : List PhaseTaskEntry) (taskId : String) :
    Option PhaseTaskEntry :=
  metaTasks.reverse.find? (fun m => m.id = taskId)

/-- The metadata overlay of `loadTasks` (lines 92-110): when `meta.json`
has an entry for the task id, its dependencies, estimate (numeric value
rendered with an `h` suffix) and priority replace the per-task file's
values, and a non-`not_started` status is mapped onto the task status. -/
def applyMetaOverlay (metaTasks : List PhaseTaskEntry) (task : Task) : Task :=
  match metaLookup metaTasks task.id with
  | none => task
  | some m =>
    { task with
      dependencies := m.dependencies
      estimate := some (jsRatToString m.estimate ++ "h")
      priority := some m.priority
      status :=
        match m.status with
        | .not_started => task.status
        | .in_progress => .in_progress
        | .completed => .completed
        | .failed => .failed
        | .blocked => .blocked }

/-- A task subdirectory of a phase directory together with the task record
`loadTaskFromDir` produces for it.  `loadTaskFromDir` reads `task.yaml`,
then `tasks.md` front matter, then falls back to a minimal record derived
from the directory name, and always forces the id it is given; `record`
stands for its output (before that id forcing), abstracting the file
parsing the overlay logic consumes. -/
structure TaskDirEntry where
  dirName : String
  record : Task
deriving DecidableEq, Repr

/-- A located phase directory: the parsed `meta.json` task entries (none
when the file is absent or fails schema validation, lines 62-71) and the
directory entries. -/
structure PhaseDir where
  meta : Option (List PhaseTaskEntry)
  entries : List TaskDirEntry
deriving DecidableEq, Repr

/-- The task-directory test of `loadTasks` (line 85):
`entry.match(/^(T\d{2}-\d{3})/)`, returning the captured id. -/
def matchTaskDirName (name : String) : Option String :=
  match name.toList with
  | c0 :: c1 :: c2 :: c3 :: c4 :: c5 :: c6 :: _ =>
    if c0 = 'T' ∧ c1.isDigit ∧ c2.isDigit ∧ c3 = '-' ∧ c4.isDigit ∧
        c5.isDigit ∧ c6.isDigit then
      some (String.mk [c0, c1, c2, c3, c4, c5, c6])
    else none
  | _ => none

/-- The entries of the `metaTaskMap`: the parsed metadata's task list, or
nothing when `meta.json` is absent or failed validation (in which case the
overlay lookup never fires). -/
def metaOf (dir : PhaseDir) : List PhaseTaskEntry :=
  match dir.meta with
  | some ts => ts
  | none => []

/-- The per-entry body of the `loadTasks` directory loop (lines 84-115):
skip entries that do not match the task-directory pattern, force the
captured id, apply the metadata overlay. -/
def loadEntry (metaTasks : List PhaseTaskEntry) (e : TaskDirEntry) :
    Option Task :=
  match matchTaskDirName e.dirName with
  | none => none
  | some tid => some (applyMetaOverlay metaTasks { e.record with id := tid })

/-- The phase-directory branch of `loadTasks` (lines 81-120): load each
matching task subdirectory, force the id captured from the directory name,
apply the metadata overlay, and sort by id. -/
def loadTasks (dir : PhaseDir) : List Task :=
  (dir.entries.filterMap (loadEntry (metaOf dir))).insertionSort
    (fun a b => a.id ≤ b.id)

/-- `loadTask` (lines 126-164): find the first directory entry whose name
starts with the requested task id and return `loadTaskFromDir`'s record
with the id forced — without consulting `meta.json`. -/
def loadTask (dir : PhaseDir) (taskId : String) : Option Task :=
  match dir.entries.find? (fun e => jsStartsWith e.dirName taskId) with
  | none => none
  | some e => some { e.record with id := taskId }

/-! ## Hook runner (core/hooks-executor.ts) -/

/-- The `{success, output}` result of `executeCommand`: `success` is
`exitCode == 0`, and a spawn error also resolves with `success: false`. -/
structure HookResult where
  success : Bool
  output : String := ""
deriving DecidableEq, Repr

/-- `HooksConfigSchema`: each hook is an optional shell command string. -/
structure HooksConfig where
  beforePhase : Option String := none
  beforeTask : Option String := none
  afterTask : Option String := none
  onSuccess : Option String := none
  onError : Option String := none
deriving DecidableEq, Repr

/-- Errors raised by the fatal hooks. -/
inductive HookErr
  | beforePhaseFailed (output : String)
  | beforeTaskFailed (output : String)
deriving DecidableEq, Repr

/-- `HooksExecutor.run` (lines 29-40): an unconfigured hook succeeds with
empty output; a configured one spawns its command — the shell's behaviour
is the `shell` oracle mapping the command to its `executeCommand`
result. -/
def runHook (command : Option String) (shell : String → HookResult) :
    HookResult :=
  match command with
  | none => { success := true, output := "" }
  | some cmd => shell cmd

/-- `HooksExecutor.beforePhase` (lines 45-55): throw on failure. -/
def beforePhase (hooks : HooksConfig) (shell : String → HookResult) :
    Except HookErr Unit :=
  let result := runHook hooks.beforePhase shell
  if result.success then .ok () else .error (.beforePhaseFailed result.output)

/-- `HooksExecutor.beforeTask` (lines 60-72): throw on failure. -/
def beforeTask (hooks : HooksConfig) (shell : String → HookResult) :
    Except HookErr Unit :=
  let result := runHook hooks.beforeTask shell
  if result.success then .ok () else .error (.beforeTaskFailed result.output)

/-- `HooksExecutor.afterTask` (lines 77-91): no throw, a failure only
yields a `console.warn` line. -/
def afterTask (hooks : HooksConfig) (shell : String → HookResult) :
    List String :=
  let result := runHook hooks.afterTask shell
  if result.success then [] else ["afterTask hook failed: " ++ result.output]

/-- `HooksExecutor.onSuccess` (lines 96-107): warning only. -/
def onSuccess (hooks : HooksConfig) (shell : String → HookResult) :
    List String :=
  let result := runHook hooks.onSuccess shell
  if result.success then [] else ["onSuccess hook failed: " ++ result.output]

/-- `HooksExecutor.onError` (lines 112-126): warning only. -/
def onError (hooks : HooksConfig) (shell : String → HookResult) :
    List String :=
  let result := runHook hooks.onError shell
  if result.success then [] else ["onError hook failed: " ++ result.output]

/-- The hook skeleton of `TaskExecutor.executeTask` (run.ts lines
273-354): `beforeTask` runs before the `try` block, so its failure aborts
the step before `startTask` and before the `finally`-scheduled
`afterTask`; otherwise the task outcome is decided by the engine result
and `afterTask` runs in `finally`, contributing only warnings.  Separate
shell oracles for the two hook invocations let the theorems state that the
outcome does not depend on the `afterTask` one. -/
def executeTaskWithHooks (hooks : HooksConfig)
    (shellBefore shellAfter : String → HookResult)
    (engineResult : ExecutionResult) : Except HookErr TaskStatus × List String :=
  match beforeTask hooks shellBefore with
  | .error e => (.error e, [])
  | .ok _ => (.ok (executeTaskOutcome engineResult), afterTask hooks shellAfter)

/-! ## Session store statement granularity (core/session-manager.ts) -/

/-- The mutable columns of a `sessions` row (`updateSession`'s SET list,
minus the registry maps no modelled claim touches). -/
structure SessionRowState where
  pendingTasks : List String
  currentTask : Option String
  completedTasks : List String
  failedTasks : List String
  lastCheckpointAt : Option Nat
deriving DecidableEq, Repr

/-- The database state `saveCheckpoint` touches: the session row and the
`checkpoints` table. -/
structure Db where
  sessionRow : SessionRowState
  checkpointRows : List Checkpoint
deriving DecidableEq, Repr

/-- The SQL statements `saveCheckpoint` (lines 573-614) executes, in
order and with no enclosing transaction: the checkpoint INSERT
(lines 589-601), then the single session UPDATE issued by `updateSession`
(lines 603-613) with the fields computed from the session object read at
entry.  Each list element is one statement (atomic in isolation);
`deleteSession` (lines 704-714) by contrast wraps its two DELETEs in
`db.transaction`. -/
def saveCheckpointStmts (db0 : Db) (taskId : String) (status : TaskStatus)
    (now : Nat) (prLink : Option String := none)
    (duration : Option Nat := none) (error : Option String := none) :
    List (Db → Db) :=
  let session := db0.sessionRow
  [ fun db =>
      { db with checkpointRows := db.checkpointRows ++
        [{ timestamp := now, taskId := taskId, status := status,
           prLink := prLink, duration := duration, error := error }] },
    fun db =>
      { db with sessionRow :=
        { session with
          lastCheckpointAt := some now
          currentTask := none
          completedTasks :=
            if status = .completed then session.completedTasks ++ [taskId]
            else session.completedTasks
          failedTasks :=
            if status = .failed then session.failedTasks ++ [taskId]
            else session.failedTasks } } ]

/-- Apply a statement list in order. -/
def applyStmts (stmts : List (Db → Db)) (db : Db) : Db :=
  stmts.foldl (fun d f => f d) db

/-- State after the first `k` statements — the state a crash at that point
leaves on disk. -/
def applyStmtsPrefix (stmts : List (Db → Db)) (k : Nat) (db : Db) : Db :=
  applyStmts (stmts.take k) db

/-- All-or-nothing execution: every crash point leaves either the initial
or the final state. -/
def atomicStmts (stmts : List (Db → Db)) (db : Db) : Prop :=
  ∀ k : Nat, applyStmtsPrefix stmts k db = db ∨
    applyStmtsPrefix stmts k db = applyStmts stmts db

/-! ## Executor traces over the session store -/

/-- One attempt of `TaskExecutor.executeTask` as it acts on the tracked
session fields: `startTask` at entry (run.ts line 282) and a terminal
checkpoint at exit — `completed` on the success path (line 335), `failed`
in the catch block (line 344). -/
def executeTaskAttempt (s : SessionState) (taskId : String)
    (outcome : TaskStatus) (now : Nat) : SessionState :=
  saveCheckpoint (startTask s taskId) taskId outcome now

/-- `TaskExecutor.executeTaskWithRetry` (run.ts lines 237-271) as the
sequence of attempts it performs for one task, each attempt recorded as
its outcome status and checkpoint timestamp. -/
def executeTaskWithRetry (s : SessionState) (taskId : String)
    (attempts : List (TaskStatus × Nat)) : SessionState :=
  attempts.foldl (fun st a => executeTaskAttempt st taskId a.1 a.2) s

/-- Attempt sequences the retry loop can generate: at least one attempt,
every attempt before the last fails (a success returns from the loop), and
every outcome is a terminal checkpoint status. -/
def isRetryAttemptSeq (attempts : List (TaskStatus × Nat)) : Prop :=
  attempts ≠ [] ∧
  (∀ a ∈ attempts.dropLast, a.1 = TaskStatus.failed) ∧
  (∀ a ∈ attempts, a.1 = TaskStatus.failed ∨ a.1 = TaskStatus.completed)

instance (attempts : List (TaskStatus × Nat)) :
    Decidable (isRetryAttemptSeq attempts) := by
  unfold isRetryAttemptSeq
  infer_instance

/-- A session run: `createSession` with the loaded ids followed by the
per-task retry loops in execution order. -/
def runSession (ids : List String)
    (script : List (String × List (TaskStatus × Nat))) : SessionState :=
  script.foldl (fun st e => executeTaskWithRetry st e.1 e.2)
    (createSession ids)

/-- The resume recovery step (commands part `resumeCommand`, lines
97-103): an interrupted `currentTask` is unshifted onto the front of
`pendingTasks`, `currentTask` is cleared, and the session is persisted. -/
def resumePrepare (s : SessionState) : SessionState :=
  match s.currentTask with
  | some t =>
    { s with pendingTasks := t :: s.pendingTasks, currentTask := none }
  | none => s

/-! ## Concrete instances used by counterexamples and witnesses -/

/-- A database state mid-run: `startTask` has set `currentTask` and the
task has not yet been checkpointed. -/
def crashDb : Db :=
  { sessionRow :=
    { pendingTasks := []
      currentTask := some "T00-001"
      completedTasks := []
      failedTasks := []
      lastCheckpointAt := none }
    checkpointRows := [] }

/-- A session interrupted on task `B` after completing `A` (scenario 4 of
the specification's end-to-end scenarios). -/
def interruptedDemo : SessionState :=
  { pendingTasks := []
    currentTask := some "B"
    completedTasks := ["A"]
    failedTasks := []
    checkpoints := []
    lastCheckpointAt := none }

/-- A task whose estimate does not match the estimate pattern. -/
def invalidEstimateTask : Task :=
  { id := "T00-002", estimate := some "soon" }

/-- A task with a two-hour estimate. -/
def smallTask : Task :=
  { id := "T00-001", estimate := some "2h" }

/-- A phase directory whose metadata and per-task file disagree on the
dependencies, estimate and priority of `T00-001`. -/
def metaDemoDir : PhaseDir :=
  { meta := some
      [{ id := "T00-001", estimate := 4, priority := .P1,
         dependencies := ["T00-000"] }]
    entries :=
      [{ dirName := "T00-001-setup"
         record :=
           { id := "T00-001", name := "Setup", dependencies := [],
             estimate := some "9h", priority := some .P3 } }] }

/-- The retried session state of the counterexample run: one task, one
failed attempt followed by a successful retry — the operation sequence
`executeTaskWithRetry` performs when the first attempt throws after its
failed checkpoint and the second succeeds. -/
def retryDemo : SessionState :=
  runSession ["T00-001"]
    [("T00-001", [(TaskStatus.failed, 1), (TaskStatus.completed, 2)])]

/-- Number of `completed` checkpoints a session's checkpoint sequence
holds for a given task id. -/
def completedCheckpointCount (st : SessionState) (i : String) : Nat :=
  (st.checkpoints.filter
    (fun c => c.taskId = i ∧ c.status = TaskStatus.completed)).length

/-- Invariant of the session store under executor traces: `processed` is
the list of task ids whose retry loops have finished.  States: no task in
flight, the pending list is the originally loaded ids minus the processed
ones, the terminal sets contain only processed ids and every processed id,
`completedTasks` has no duplicates, and each id has at most one
`completed` checkpoint — none if unprocessed. -/
def SessionInv (ids processed : List String) (st : SessionState) : Prop :=
  st.currentTask = none ∧
  st.pendingTasks = ids.filter (fun i => i ∉ processed) ∧
  (∀ i ∈ st.completedTasks, i ∈ processed) ∧
  (∀ i ∈ st.failedTasks, i ∈ processed) ∧
  (∀ i ∈ processed, i ∈ st.completedTasks ∨ i ∈ st.failedTasks) ∧
  st.completedTasks.Nodup ∧
  (∀ i : String, completedCheckpointCount st i ≤ 1 ∧
    (i ∉ processed → completedCheckpointCount st i = 0))

/-- A two-task dependency cycle with all dependencies present. -/
def cycleDemo : List Task :=
  [{ id := "X", dependencies := ["Y"] },
   { id := "Y", dependencies := ["X"] }]

/-- A cyclic task list that also names a missing dependency `M`. -/
def xmDemo : List Task :=
  [{ id := "X", dependencies := ["Y", "M"] },
   { id := "Y", dependencies := ["X"] }]

/-- A valid DAG whose dependency edge crosses parallel groups backwards:
`T00-002` is in group 1 but depends on `T00-001` in group 2. -/
def crossDemo : List Task :=
  [{ id := "T00-001", parallelGroup := 2 },
   { id := "T00-002", parallelGroup := 1, dependencies := ["T00-001"] }]

/-- A diamond-shaped valid DAG in a single parallel group. -/
def dagDemo : List Task :=
  [{ id := "A" },
   { id := "B", dependencies := ["A"] },
   { id := "C", dependencies := ["A"] },
   { id := "D", dependencies := ["B", "C"] }]

/-- The waves the scheduler builds for `dagDemo` (the middle wave is in
reverse input order because the sweep walks `remaining` backwards). -/
def dagWaves : List (List Task) :=
  [[{ id := "A" }],
   [{ id := "C", dependencies := ["A"] },
    { id := "B", dependencies := ["A"] }],
   [{ id := "D", dependencies := ["B", "C"] }]]

/-! ## Bridge lemmas between the `mkRat`-level arithmetic and the field
operations on `ℚ` -/

theorem jsAdd_eq (a b : ℚ) : jsAdd a b = a + b :=
  (Rat.add_def' a b).symm

theorem jsMul_eq (a b : ℚ) : jsMul a b = a * b := by
  rw [jsMul, Rat.mul_def, Rat.normalize_eq_mkRat]

theorem jsSub_eq (a b : ℚ) : jsSub a b = a - b :=
  (Rat.sub_def' a b).symm

theorem jsMax_eq (a b : ℚ) : jsMax a b = max a b := by
  unfold jsMax
  rcases lt_or_le a b with h | h
  · rw [if_pos h, max_eq_right h.le]
  · rw [if_neg (not_lt.mpr h), max_eq_left h]

/-! ## Claim C4 -/

/-- C4, counterexample: an engine result carrying the completion token
(`completed = true`) but a non-zero exit (`success = false`) is routed to
the `failed` checkpoint path by the executor, not treated as task
completion as the claim states. -/
theorem executeTaskOutcome_token_without_exit_success :
    executeTaskOutcome { success := false, completed := true } =
      TaskStatus.failed ∧
    TaskStatus.failed ≠ TaskStatus.completed :=
  ⟨rfl, by decide⟩

/-- C4, amended: the executor proceeds to the validating / committing /
checkpoint(`completed`) steps if and only if the engine result has both
`success = true` (exit code zero) and `completed = true` (completion token
present); either flag alone sends the task to the failure path. -/
theorem executeTaskOutcome_completed_iff (r : ExecutionResult) :
    executeTaskOutcome r = TaskStatus.completed ↔
      (r.success = true ∧ r.completed = true) := by
  unfold executeTaskOutcome
  rcases hs : r.success <;> rcases hc : r.completed <;> simp [hs, hc]

/-! ## Claim C3 -/

/-- C3: `saveCheckpoint` issues its checkpoint INSERT and its session
UPDATE as two separate statements with no enclosing transaction, so a
crash between them leaves a state that is neither the initial one nor the
final one: the checkpoint row is appended while `currentTask`,
`completedTasks` and `lastCheckpointAt` are still untouched. -/
theorem saveCheckpoint_two_statement_crash :
    ¬ atomicStmts (saveCheckpointStmts crashDb "T00-001" .completed 5) crashDb ∧
    (applyStmtsPrefix (saveCheckpointStmts crashDb "T00-001" .completed 5) 1
        crashDb).sessionRow.currentTask = some "T00-001" ∧
    (applyStmtsPrefix (saveCheckpointStmts crashDb "T00-001" .completed 5) 1
        crashDb).checkpointRows =
      [{ timestamp := 5, taskId := "T00-001", status := .completed }] := by
  refine ⟨fun h => ?_, by decide, by decide⟩
  rcases h 1 with h1 | h1
  · exact absurd h1 (by decide)
  · exact absurd h1 (by decide)

/-! ## Claim C9 -/

/-- C9: `saveCheckpoint` accepts every non-terminal task status (the
status parameter ranges over the full `TaskStatus` enumeration): it
appends the checkpoint row, clears `currentTask` and updates
`lastCheckpointAt`, but pushes the id onto neither `completedTasks` nor
`failedTasks`, so an id removed from `pendingTasks` by `startTask` is in
no membership set afterwards. -/
theorem saveCheckpoint_nonterminal_status (s : SessionState) (t : String)
    (status : TaskStatus) (now : Nat)
    (h1 : status ≠ .completed) (h2 : status ≠ .failed)
    (hc : t ∉ s.completedTasks) (hf : t ∉ s.failedTasks) :
    (saveCheckpoint (startTask s t) t status now).checkpoints =
      s.checkpoints ++ [{ timestamp := now, taskId := t, status := status }] ∧
    (saveCheckpoint (startTask s t) t status now).currentTask = none ∧
    (saveCheckpoint (startTask s t) t status now).lastCheckpointAt = some now ∧
    t ∉ (saveCheckpoint (startTask s t) t status now).pendingTasks ∧
    t ∉ (saveCheckpoint (startTask s t) t status now).completedTasks ∧
    t ∉ (saveCheckpoint (startTask s t) t status now).failedTasks := by
  refine ⟨?_, ?_, ?_, ?_, ?_, ?_⟩ <;>
    simp [saveCheckpoint, startTask, if_neg h1, if_neg h2, List.mem_filter,
      hc, hf]

/-- C9, witness: checkpointing `T00-001` with status `blocked` right
after `startTask` leaves it in no membership set. -/
theorem saveCheckpoint_nonterminal_status_witness :
    TaskStatus.blocked ≠ TaskStatus.completed ∧
    ((saveCheckpoint (startTask (createSession ["T00-001"]) "T00-001")
        "T00-001" .blocked 7).checkpoints =
      (createSession ["T00-001"]).checkpoints ++
        [{ timestamp := 7, taskId := "T00-001", status := .blocked }] ∧
    (saveCheckpoint (startTask (createSession ["T00-001"]) "T00-001")
        "T00-001" .blocked 7).currentTask = none ∧
    (saveCheckpoint (startTask (createSession ["T00-001"]) "T00-001")
        "T00-001" .blocked 7).lastCheckpointAt = some 7 ∧
    "T00-001" ∉ (saveCheckpoint (startTask (createSession ["T00-001"]) "T00-001")
        "T00-001" .blocked 7).pendingTasks ∧
    "T00-001" ∉ (saveCheckpoint (startTask (createSession ["T00-001"]) "T00-001")
        "T00-001" .blocked 7).completedTasks ∧
    "T00-001" ∉ (saveCheckpoint (startTask (createSession ["T00-001"]) "T00-001")
        "T00-001" .blocked 7).failedTasks) :=
  ⟨by decide,
    saveCheckpoint_nonterminal_status (createSession ["T00-001"]) "T00-001"
      .blocked 7 (by decide) (by decide) (by decide) (by decide)⟩

/-! ## Claim C6 -/

/-- C6: when `currentTask` is set, the resume step prepends it to the
front of `pendingTasks` and clears `currentTask` in the persisted state,
and a subsequent successful re-execution (`startTask` then
`saveCheckpoint completed`) ends with the interrupted task in
`completedTasks`. -/
theorem resume_interrupted_task (s : SessionState) (t : String) (now : Nat)
    (h : s.currentTask = some t) :
    (resumePrepare s).pendingTasks = t :: s.pendingTasks ∧
    (resumePrepare s).currentTask = none ∧
    (executeTaskAttempt (resumePrepare s) t .completed now).completedTasks =
      s.completedTasks ++ [t] ∧
    t ∈ (executeTaskAttempt (resumePrepare s) t .completed now).completedTasks := by
  have hr : resumePrepare s =
      { s with pendingTasks := t :: s.pendingTasks, currentTask := none } := by
    unfold resumePrepare
    rw [h]
  rw [hr]
  refine ⟨rfl, rfl, ?_, ?_⟩
  · simp [executeTaskAttempt, saveCheckpoint, startTask]
  · simp [executeTaskAttempt, saveCheckpoint, startTask]

/-- C6, witness: a session interrupted on task `B` after completing `A`
resumes with `B` re-queued, and a successful re-execution yields
`completedTasks = [A, B]`. -/
theorem resume_interrupted_task_witness :
    interruptedDemo.currentTask = some "B" ∧
    ((resumePrepare interruptedDemo).pendingTasks = "B" :: interruptedDemo.pendingTasks ∧
      (resumePrepare interruptedDemo).currentTask = none ∧
      (executeTaskAttempt (resumePrepare interruptedDemo) "B"
          TaskStatus.completed 9).completedTasks =
        interruptedDemo.completedTasks ++ ["B"] ∧
      "B" ∈ (executeTaskAttempt (resumePrepare interruptedDemo) "B"
          TaskStatus.completed 9).completedTasks) :=
  ⟨rfl, resume_interrupted_task interruptedDemo "B" 9 rfl⟩

/-! ## Claim C10 -/

theorem estimateValue_nonneg (a b : List Char) : 0 ≤ estimateValue a b := by
  unfold estimateValue
  exact Rat.mkRat_nonneg (by positivity) _

theorem matchEstimate_nonneg (s : String) (v : ℚ) (u : String)
    (h : matchEstimate s = some (v, u)) : 0 ≤ v := by
  unfold matchEstimate at h
  split at h
  · simp at h
  · split at h
    · rw [Option.some.injEq, Prod.mk.injEq] at h
      rw [← h.1]
      exact estimateValue_nonneg _ _
    · simp at h

theorem parseEstimate_nonneg (o : Option String) : 0 ≤ parseEstimate o := by
  unfold parseEstimate
  rcases o with _ | s
  · exact le_refl 0
  · rcases hm : matchEstimate s with _ | ⟨v, u⟩ <;> simp only [hm]
    · exact le_refl 0
    · have hv := matchEstimate_nonneg s v u hm
      have h8 : 0 ≤ jsMul v (mkRat 8 1) := by
        rw [jsMul_eq]
        exact mul_nonneg hv (by decide)
      split_ifs <;> first | exact h8 | exact hv

theorem waveHours_fold_nonneg (l : List Task) (acc : ℚ) (h : 0 ≤ acc) :
    0 ≤ l.foldl (fun acc t => jsMax acc (parseEstimate t.estimate)) acc := by
  induction l generalizing acc with
  | nil => exact h
  | cons t ts ih =>
    refine ih _ ?_
    simp only [jsMax_eq]
    exact le_trans h (le_max_left _ _)

/-- C10: a task whose estimate is absent or does not match the
number-plus-unit pattern is parsed to 0 hours, and removing it from its
wave changes neither the wave's duration (the running max starts at 0)
nor the total estimated duration (the sum of the wave maxima). -/
theorem parseEstimate_invalid_contributes_nothing (t : Task)
    (w1 w2 : List Task) (pre post : List (List Task))
    (h : t.estimate = none ∨
      ∃ s, t.estimate = some s ∧ matchEstimate s = none) :
    parseEstimate t.estimate = 0 ∧
    waveHours (w1 ++ t :: w2) = waveHours (w1 ++ w2) ∧
    totalWaveHours (pre ++ (w1 ++ t :: w2) :: post) =
      totalWaveHours (pre ++ (w1 ++ w2) :: post) := by
  have h0 : parseEstimate t.estimate = 0 := by
    rcases h with h | ⟨s, hs, hmatch⟩
    · rw [h]
      rfl
    · rw [hs]
      simp only [parseEstimate, hmatch]
  have hw : waveHours (w1 ++ t :: w2) = waveHours (w1 ++ w2) := by
    unfold waveHours
    rw [List.foldl_append, List.foldl_append, List.foldl_cons, h0]
    congr 1
    rw [jsMax_eq]
    exact max_eq_left (waveHours_fold_nonneg w1 0 le_rfl)
  refine ⟨h0, hw, ?_⟩
  unfold totalWaveHours
  rw [List.map_append, List.map_append, List.map_cons, List.map_cons, hw]

/-- C10, witness: the unparseable estimate `"soon"` yields 0 hours and
drops out of the wave max and the total. -/
theorem parseEstimate_invalid_contributes_nothing_witness :
    (invalidEstimateTask.estimate = none ∨
      ∃ s, invalidEstimateTask.estimate = some s ∧ matchEstimate s = none) ∧
    (parseEstimate invalidEstimateTask.estimate = 0 ∧
      waveHours ([smallTask] ++ invalidEstimateTask :: []) =
        waveHours ([smallTask] ++ []) ∧
      totalWaveHours ([[smallTask]] ++
          ([smallTask] ++ invalidEstimateTask :: []) :: []) =
        totalWaveHours ([[smallTask]] ++ ([smallTask] ++ []) :: [])) :=
  ⟨Or.inr ⟨"soon", rfl, by decide⟩,
    parseEstimate_invalid_contributes_nothing invalidEstimateTask
      [smallTask] [] [[smallTask]] []
      (Or.inr ⟨"soon", rfl, by decide⟩)⟩

/-! ## Claim C5 -/

theorem applyMetaOverlay_id (mt : List PhaseTaskEntry) (r : Task) :
    (applyMetaOverlay mt r).id = r.id := by
  unfold applyMetaOverlay
  rcases h : metaLookup mt r.id with _ | m <;> simp [h]

/-- C5, counterexample: `loadTask` by explicit id (the path resume uses)
returns the per-task file's dependencies, estimate and priority even
though the phase metadata is present, valid, and carries an entry for the
id with different values — only `loadTasks` over the phase directory
applies the overlay. -/
theorem loadTask_ignores_metadata :
    (metaDemoDir.meta =
      some [{ id := "T00-001", estimate := 4, priority := .P1,
              dependencies := ["T00-000"] }] ∧
    metaLookup
        [{ id := "T00-001", estimate := 4, priority := .P1,
           dependencies := ["T00-000"] }] "T00-001" =
      some { id := "T00-001", estimate := 4, priority := .P1,
             dependencies := ["T00-000"] }) ∧
    (loadTask metaDemoDir "T00-001").map Task.dependencies = some [] ∧
    (loadTask metaDemoDir "T00-001").map Task.estimate = some (some "9h") ∧
    (loadTask metaDemoDir "T00-001").map Task.priority =
      some (some Priority.P3) ∧
    (loadTasks metaDemoDir).map Task.dependencies = [["T00-000"]] ∧
    ([] : List String) ≠ ["T00-000"] := by
  exact ⟨⟨rfl, by decide⟩, by decide, by decide, by decide, by decide,
    by decide⟩

/-- C5, amended: the metadata overlay holds for every task loaded by
`loadTasks` over a phase directory: when the phase metadata is present and
has an entry for the task id, the loaded task's dependencies, estimate
(the numeric value formatted with an `h` suffix) and priority equal the
metadata values; `loadTask` by explicit task id (used by resume and by the
`--tasks` option) performs no overlay. -/
theorem loadTasks_meta_overlay (dir : PhaseDir)
    (metaTasks : List PhaseTaskEntry) (t : Task) (m : PhaseTaskEntry)
    (hmeta : dir.meta = some metaTasks)
    (ht : t ∈ loadTasks dir)
    (hm : metaLookup metaTasks t.id = some m) :
    t.dependencies = m.dependencies ∧
    t.estimate = some (jsRatToString m.estimate ++ "h") ∧
    t.priority = some m.priority := by
  have ht' : t ∈ dir.entries.filterMap (loadEntry (metaOf dir)) :=
    (List.perm_insertionSort (fun a b : Task => a.id ≤ b.id)
      (dir.entries.filterMap (loadEntry (metaOf dir)))).mem_iff.mp ht
  have hmo : metaOf dir = metaTasks := by
    unfold metaOf
    rw [hmeta]
  rw [List.mem_filterMap] at ht'
  obtain ⟨e, _he, hfe⟩ := ht'
  unfold loadEntry at hfe
  rcases hmd : matchTaskDirName e.dirName with _ | tid <;> rw [hmd] at hfe
  · exact absurd hfe (by simp)
  · obtain rfl := Option.some.inj hfe
    rw [hmo] at hm ⊢
    rw [applyMetaOverlay_id] at hm
    unfold applyMetaOverlay
    rw [show ({ e.record with id := tid } : Task).id = tid from rfl] at hm ⊢
    rw [hm]
    exact ⟨rfl, rfl, rfl⟩

/-- C5, witness: on the demo phase directory, the task loaded by
`loadTasks` carries the metadata's dependencies, estimate and priority. -/
theorem loadTasks_meta_overlay_witness :
    (metaDemoDir.meta =
      some [{ id := "T00-001", estimate := 4, priority := .P1,
              dependencies := ["T00-000"] }] ∧
    ({ id := "T00-001", name := "Setup", dependencies := ["T00-000"],
       estimate := some "4h", priority := some .P1 } : Task) ∈
      loadTasks metaDemoDir) ∧
    (({ id := "T00-001", name := "Setup", dependencies := ["T00-000"],
        estimate := some "4h", priority := some .P1 } : Task).dependencies =
      ["T00-000"] ∧
    ({ id := "T00-001", name := "Setup", dependencies := ["T00-000"],
       estimate := some "4h", priority := some .P1 } : Task).estimate =
      some (jsRatToString 4 ++ "h") ∧
    ({ id := "T00-001", name := "Setup", dependencies := ["T00-000"],
       estimate := some "4h", priority := some .P1 } : Task).priority =
      some Priority.P1) :=
  ⟨⟨rfl, by decide⟩,
    loadTasks_meta_overlay metaDemoDir
      [{ id := "T00-001", estimate := 4, priority := .P1,
         dependencies := ["T00-000"] }]
      { id := "T00-001", name := "Setup", dependencies := ["T00-000"],
        estimate := some "4h", priority := some .P1 }
      { id := "T00-001", estimate := 4, priority := .P1,
        dependencies := ["T00-000"] }
      rfl (by decide) (by decide)⟩

/-! ## Claim C8 -/

/-- C8: a failing `beforePhase` or `beforeTask` hook (non-zero exit or
spawn error, both reported as `success = false` by `executeCommand`)
aborts the current execution step with an error — `beforeTask` before the
task pipeline even starts; a failing `afterTask`, `onSuccess` or `onError`
hook only produces a warning line: the task outcome of
`executeTaskWithHooks` is the same whatever the `afterTask` hook does, and
the post-hooks return warnings rather than raising. -/
theorem hook_failure_policy (hooks : HooksConfig)
    (sp sb sb' sa sa' sos soe : String → HookResult) (r : ExecutionResult)
    (hp : (runHook hooks.beforePhase sp).success = false)
    (hb : (runHook hooks.beforeTask sb).success = false)
    (hb' : (runHook hooks.beforeTask sb').success = true)
    (ha : (runHook hooks.afterTask sa).success = false)
    (hos : (runHook hooks.onSuccess sos).success = false)
    (hoe : (runHook hooks.onError soe).success = false) :
    beforePhase hooks sp =
      .error (.beforePhaseFailed (runHook hooks.beforePhase sp).output) ∧
    executeTaskWithHooks hooks sb sa r =
      (.error (.beforeTaskFailed (runHook hooks.beforeTask sb).output), []) ∧
    (executeTaskWithHooks hooks sb' sa r).1 = .ok (executeTaskOutcome r) ∧
    (executeTaskWithHooks hooks sb' sa r).1 =
      (executeTaskWithHooks hooks sb' sa' r).1 ∧
    onSuccess hooks sos =
      ["onSuccess hook failed: " ++ (runHook hooks.onSuccess sos).output] ∧
    onError hooks soe =
      ["onError hook failed: " ++ (runHook hooks.onError soe).output] ∧
    afterTask hooks sa =
      ["afterTask hook failed: " ++ (runHook hooks.afterTask sa).output] := by
  refine ⟨?_, ?_, ?_, ?_, ?_, ?_, ?_⟩
  · simp [beforePhase, hp]
  · simp [executeTaskWithHooks, beforeTask, hb]
  · simp [executeTaskWithHooks, beforeTask, hb']
  · simp [executeTaskWithHooks, beforeTask, hb']
  · simp [onSuccess, hos]
  · simp [onError, hoe]
  · simp [afterTask, ha]

/-- C8, witness: a configuration with all five hooks set, a shell in which
every command fails, and one in which the `beforeTask` command succeeds. -/
theorem hook_failure_policy_witness :
    (runHook (HooksConfig.mk (some "p") (some "b") (some "a") (some "s")
        (some "e")).beforePhase (fun _ => ⟨false, "boom"⟩)).success = false ∧
    (beforePhase (HooksConfig.mk (some "p") (some "b") (some "a") (some "s")
        (some "e")) (fun _ => ⟨false, "boom"⟩) =
      .error (.beforePhaseFailed "boom") ∧
    executeTaskWithHooks (HooksConfig.mk (some "p") (some "b") (some "a")
        (some "s") (some "e")) (fun _ => ⟨false, "boom"⟩)
        (fun _ => ⟨false, "boom"⟩) { success := true, completed := true } =
      (.error (.beforeTaskFailed "boom"), []) ∧
    (executeTaskWithHooks (HooksConfig.mk (some "p") (some "b") (some "a")
        (some "s") (some "e")) (fun _ => ⟨true, ""⟩)
        (fun _ => ⟨false, "boom"⟩) { success := true, completed := true }).1 =
      .ok TaskStatus.completed) := by
  have hkp := hook_failure_policy
    (HooksConfig.mk (some "p") (some "b") (some "a") (some "s") (some "e"))
    (fun _ => ⟨false, "boom"⟩) (fun _ => ⟨false, "boom"⟩)
    (fun _ => ⟨true, ""⟩) (fun _ => ⟨false, "boom"⟩) (fun _ => ⟨true, ""⟩)
    (fun _ => ⟨false, "boom"⟩) (fun _ => ⟨false, "boom"⟩)
    { success := true, completed := true }
    rfl rfl rfl rfl rfl rfl
  exact ⟨rfl, hkp.1, hkp.2.1, hkp.2.2.1⟩

/-! ## Claim C2 -/

theorem executeTaskAttempt_def (s : SessionState) (t : String)
    (o : TaskStatus) (now : Nat) :
    executeTaskAttempt s t o now =
      { pendingTasks := s.pendingTasks.filter (fun x => x ≠ t)
        currentTask := none
        completedTasks :=
          if o = TaskStatus.completed then s.completedTasks ++ [t]
          else s.completedTasks
        failedTasks :=
          if o = TaskStatus.failed then s.failedTasks ++ [t]
          else s.failedTasks
        checkpoints :=
          s.checkpoints ++ [{ timestamp := now, taskId := t, status := o }]
        lastCheckpointAt := some now } :=
  rfl

/-- Closed form of the session fields after one task's full retry loop. -/
theorem executeTaskWithRetry_fields (t : String)
    (attempts : List (TaskStatus × Nat)) (s : SessionState)
    (h : attempts ≠ []) :
    (executeTaskWithRetry s t attempts).pendingTasks =
      s.pendingTasks.filter (fun x => x ≠ t) ∧
    (executeTaskWithRetry s t attempts).currentTask = none ∧
    (executeTaskWithRetry s t attempts).completedTasks =
      s.completedTasks ++
        (attempts.filter (fun a => a.1 = TaskStatus.completed)).map
          (fun _ => t) ∧
    (executeTaskWithRetry s t attempts).failedTasks =
      s.failedTasks ++
        (attempts.filter (fun a => a.1 = TaskStatus.failed)).map
          (fun _ => t) ∧
    (executeTaskWithRetry s t attempts).checkpoints =
      s.checkpoints ++ attempts.map
        (fun a => { timestamp := a.2, taskId := t, status := a.1 }) := by
  induction attempts generalizing s with
  | nil => exact absurd rfl h
  | cons a rest ih =>
    have hstep : executeTaskWithRetry s t (a :: rest) =
        executeTaskWithRetry (executeTaskAttempt s t a.1 a.2) t rest := rfl
    rcases Decidable.em (rest = []) with hr | hr
    · subst hr
      have hone : executeTaskWithRetry s t [a] =
          executeTaskAttempt s t a.1 a.2 := rfl
      rw [hone, executeTaskAttempt_def]
      refine ⟨rfl, rfl, ?_, ?_, rfl⟩
      · by_cases hc : a.1 = TaskStatus.completed <;>
          simp [hc, List.filter_cons]
      · by_cases hc : a.1 = TaskStatus.failed <;>
          simp [hc, List.filter_cons]
    · obtain ⟨p1, p2, p3, p4, p5⟩ := ih (executeTaskAttempt s t a.1 a.2) hr
      rw [hstep]
      refine ⟨?_, p2, ?_, ?_, ?_⟩
      · rw [p1, executeTaskAttempt_def]
        simp [List.filter_filter]
      · rw [p3, executeTaskAttempt_def]
        by_cases hc : a.1 = TaskStatus.completed <;>
          simp [hc, List.filter_cons]
      · rw [p4, executeTaskAttempt_def]
        by_cases hc : a.1 = TaskStatus.failed <;>
          simp [hc, List.filter_cons]
      · rw [p5, executeTaskAttempt_def]
        simp

theorem nodup_of_length_le_one {α : Type} (l : List α) (h : l.length ≤ 1) :
    l.Nodup := by
  match l with
  | [] => exact List.nodup_nil
  | [a] => exact List.nodup_singleton a
  | a :: b :: r => simp at h

/-- At most one attempt of an executor retry sequence carries the
`completed` status: every attempt before the last fails. -/
theorem retrySeq_completed_count (attempts : List (TaskStatus × Nat))
    (h : isRetryAttemptSeq attempts) :
    (attempts.filter (fun a => a.1 = TaskStatus.completed)).length ≤ 1 := by
  obtain ⟨hne, hdrop, _⟩ := h
  have hsplit := (List.dropLast_append_getLast hne).symm
  rw [hsplit, List.filter_append, List.length_append]
  have h0 : (attempts.dropLast.filter
      (fun a => a.1 = TaskStatus.completed)).length = 0 := by
    rw [List.length_eq_zero]
    rw [List.filter_eq_nil_iff]
    intro a ha
    simp [hdrop a ha]
  rw [h0]
  simpa using List.length_filter_le _ [attempts.getLast hne]

/-- The last attempt of a retry sequence is terminal, so the task lands in
at least one of the terminal filters. -/
theorem retrySeq_terminal (attempts : List (TaskStatus × Nat))
    (h : isRetryAttemptSeq attempts) :
    attempts.filter (fun a => a.1 = TaskStatus.completed) ≠ [] ∨
    attempts.filter (fun a => a.1 = TaskStatus.failed) ≠ [] := by
  obtain ⟨hne, _, hall⟩ := h
  have hmem := List.getLast_mem hne
  rcases hall _ hmem with hf | hc
  · right
    exact List.ne_nil_of_mem (List.mem_filter.mpr ⟨hmem, by simp [hf]⟩)
  · left
    exact List.ne_nil_of_mem (List.mem_filter.mpr ⟨hmem, by simp [hc]⟩)

/-- One task's retry loop preserves the session invariant, extending the
processed list by that task. -/
theorem SessionInv_step (ids processed : List String) (st : SessionState)
    (t : String) (attempts : List (TaskStatus × Nat))
    (hinv : SessionInv ids processed st) (ht : t ∉ processed)
    (hseq : isRetryAttemptSeq attempts) :
    SessionInv ids (processed ++ [t]) (executeTaskWithRetry st t attempts) := by
  obtain ⟨i1, i2, i3, i4, i5, i6, i7⟩ := hinv
  obtain ⟨p1, p2, p3, p4, p5⟩ :=
    executeTaskWithRetry_fields t attempts st hseq.1
  refine ⟨p2, ?_, ?_, ?_, ?_, ?_, ?_⟩
  · rw [p1, i2, List.filter_filter]
    refine List.filter_congr ?_
    intro x _
    by_cases hxp : x ∈ processed <;> by_cases hxt : x = t <;>
      simp [hxp, hxt, List.mem_append]
  · intro i hi
    rw [p3] at hi
    rcases List.mem_append.mp hi with hi | hi
    · exact List.mem_append_left _ (i3 i hi)
    · obtain ⟨a, _, rfl⟩ := List.mem_map.mp hi
      exact List.mem_append_right _ (List.mem_singleton_self _)
  · intro i hi
    rw [p4] at hi
    rcases List.mem_append.mp hi with hi | hi
    · exact List.mem_append_left _ (i4 i hi)
    · obtain ⟨a, _, rfl⟩ := List.mem_map.mp hi
      exact List.mem_append_right _ (List.mem_singleton_self _)
  · intro i hi
    rcases List.mem_append.mp hi with hi | hi
    · rcases i5 i hi with hc | hc
      · exact Or.inl (by rw [p3]; exact List.mem_append_left _ hc)
      · exact Or.inr (by rw [p4]; exact List.mem_append_left _ hc)
    · rw [List.mem_singleton] at hi
      subst hi
      rcases retrySeq_terminal attempts hseq with hne | hne
      · obtain ⟨a, ha⟩ := List.exists_mem_of_ne_nil _ hne
        exact Or.inl (by
          rw [p3]
          exact List.mem_append_right _ (List.mem_map.mpr ⟨a, ha, rfl⟩))
      · obtain ⟨a, ha⟩ := List.exists_mem_of_ne_nil _ hne
        exact Or.inr (by
          rw [p4]
          exact List.mem_append_right _ (List.mem_map.mpr ⟨a, ha, rfl⟩))
  · rw [p3]
    refine List.Nodup.append i6 ?_ ?_
    · refine nodup_of_length_le_one _ ?_
      rw [List.length_map]
      exact retrySeq_completed_count attempts hseq
    · intro x hx hx'
      obtain ⟨a, _, rfl⟩ := List.mem_map.mp hx'
      exact ht (i3 _ hx)
  · intro i
    have hcount : completedCheckpointCount (executeTaskWithRetry st t attempts) i =
        completedCheckpointCount st i +
          ((attempts.map (fun a =>
            ({ timestamp := a.2, taskId := t, status := a.1 } : Checkpoint))).filter
            (fun c => c.taskId = i ∧ c.status = TaskStatus.completed)).length := by
      unfold completedCheckpointCount
      rw [p5, List.filter_append, List.length_append]
    by_cases hit : i = t
    · subst hit
      have hnew : ((attempts.map (fun a =>
          ({ timestamp := a.2, taskId := i, status := a.1 } : Checkpoint))).filter
          (fun c => c.taskId = i ∧ c.status = TaskStatus.completed)).length ≤ 1 := by
        rw [List.filter_map, List.length_map]
        refine le_trans (le_of_eq ?_) (retrySeq_completed_count attempts hseq)
        refine congrArg List.length (List.filter_congr ?_)
        intro a _
        simp [Function.comp]
      have hold : completedCheckpointCount st i = 0 := (i7 i).2 ht
      constructor
      · rw [hcount, hold, Nat.zero_add]
        exact hnew
      · intro hni
        exact absurd (List.mem_append_right processed (List.mem_singleton_self i)) hni
    · have hnew : ((attempts.map (fun a =>
          ({ timestamp := a.2, taskId := t, status := a.1 } : Checkpoint))).filter
          (fun c => c.taskId = i ∧ c.status = TaskStatus.completed)).length = 0 := by
        rw [List.length_eq_zero, List.filter_eq_nil_iff]
        intro c hc
        obtain ⟨a, _, rfl⟩ := List.mem_map.mp hc
        simp only [decide_eq_true_eq, not_and]
        intro hti
        exact absurd hti.symm hit
      constructor
      · rw [hcount, hnew, Nat.add_zero]
        exact (i7 i).1
      · intro hni
        rw [hcount, hnew, Nat.add_zero]
        exact (i7 i).2 (fun hip => hni (List.mem_append_left _ hip))

/-- The invariant carried through a whole script of per-task retry
loops. -/
theorem SessionInv_fold (ids : List String)
    (script : List (String × List (TaskStatus × Nat))) :
    ∀ (processed : List String) (st : SessionState),
    SessionInv ids processed st →
    (script.map Prod.fst).Nodup →
    (∀ e ∈ script, e.1 ∉ processed) →
    (∀ e ∈ script, isRetryAttemptSeq e.2) →
    SessionInv ids (processed ++ script.map Prod.fst)
      (script.foldl (fun st e => executeTaskWithRetry st e.1 e.2) st) := by
  induction script with
  | nil =>
    intro processed st hinv _ _ _
    simpa using hinv
  | cons e es ih =>
    intro processed st hinv hnodup hdisj hseq
    have hstep := SessionInv_step ids processed st e.1 e.2 hinv
      (hdisj e (List.mem_cons_self e es)) (hseq e (List.mem_cons_self e es))
    rw [List.map_cons] at hnodup
    have hnd := List.nodup_cons.mp hnodup
    have hmain := ih (processed ++ [e.1]) _ hstep hnd.2
      (fun e' he' hmem => by
        rcases List.mem_append.mp hmem with hmem | hmem
        · exact hdisj e' (List.mem_cons_of_mem e he') hmem
        · rw [List.mem_singleton] at hmem
          exact hnd.1 (hmem ▸ List.mem_map_of_mem Prod.fst he'))
      (fun e' he' => hseq e' (List.mem_cons_of_mem e he'))
    rw [List.map_cons, List.foldl_cons]
    have hass : processed ++ e.1 :: es.map Prod.fst =
        (processed ++ [e.1]) ++ es.map Prod.fst := by
      simp
    rw [hass]
    exact hmain

/-- C2, counterexample: one failed attempt followed by a successful retry
— an operation sequence the executor's outer retry generates — leaves the
task id in both `failedTasks` and `completedTasks`, so the four membership
sets do not partition the loaded ids. -/
theorem session_partition_violated_on_retry :
    isRetryAttemptSeq [(TaskStatus.failed, 1), (TaskStatus.completed, 2)] ∧
    "T00-001" ∈ retryDemo.completedTasks ∧
    "T00-001" ∈ retryDemo.failedTasks ∧
    retryDemo.completedTasks = ["T00-001"] ∧
    retryDemo.failedTasks = ["T00-001"] :=
  ⟨by decide, by decide, by decide, by decide, by decide⟩

/-- C2, amended: after any sequence of complete per-task retry loops over
distinct loaded ids, no task is in flight; the pending list is exactly the
loaded ids not yet processed, and a loaded id is either pending (and in
neither terminal set) or terminal (in `completedTasks` or `failedTasks`,
possibly both when a failure preceded a successful retry, failures
appearing once per failed attempt); `completedTasks` holds an id at most
once and the checkpoint sequence carries at most one `completed`
checkpoint per id. -/
theorem runSession_partition (ids : List String)
    (script : List (String × List (TaskStatus × Nat)))
    (hids : ids.Nodup)
    (hnodup : (script.map Prod.fst).Nodup)
    (hsub : ∀ e ∈ script, e.1 ∈ ids)
    (hseq : ∀ e ∈ script, isRetryAttemptSeq e.2) :
    (runSession ids script).currentTask = none ∧
    (runSession ids script).pendingTasks =
      ids.filter (fun i => i ∉ script.map Prod.fst) ∧
    (∀ i ∈ ids,
      (i ∈ (runSession ids script).pendingTasks ∧
        i ∉ (runSession ids script).completedTasks ∧
        i ∉ (runSession ids script).failedTasks) ∨
      (i ∉ (runSession ids script).pendingTasks ∧
        (i ∈ (runSession ids script).completedTasks ∨
          i ∈ (runSession ids script).failedTasks))) ∧
    (runSession ids script).completedTasks.Nodup ∧
    (∀ i, completedCheckpointCount (runSession ids script) i ≤ 1) := by
  have hbase : SessionInv ids [] (createSession ids) := by
    refine ⟨rfl, by simp [createSession], ?_, ?_, ?_, List.nodup_nil, ?_⟩
    · intro i hi
      simp [createSession] at hi
    · intro i hi
      simp [createSession] at hi
    · intro i hi
      simp at hi
    · intro i
      exact ⟨Nat.zero_le 1, fun _ => rfl⟩
  have hinv := SessionInv_fold ids script [] (createSession ids) hbase
    hnodup (fun e _ => List.not_mem_nil e.1) hseq
  rw [List.nil_append] at hinv
  obtain ⟨i1, i2, i3, i4, i5, i6, i7⟩ := hinv
  unfold runSession
  refine ⟨i1, i2, ?_, i6, fun i => (i7 i).1⟩
  intro i hi
  by_cases hp : i ∈ script.map Prod.fst
  · refine Or.inr ⟨?_, i5 i hp⟩
    rw [i2]
    simp [hp]
  · refine Or.inl ⟨?_, fun hc => hp (i3 i hc), fun hf => hp (i4 i hf)⟩
    rw [i2]
    simp [hp, hi]

/-- C2, witness: a two-task session in which the first task completes on
its first attempt satisfies the amended invariant. -/
theorem runSession_partition_witness :
    ((["T00-001", "T00-002"] : List String).Nodup ∧
      ∀ e ∈ [("T00-001", [(TaskStatus.completed, 1)])], e.1 ∈
        (["T00-001", "T00-002"] : List String)) ∧
    ((runSession ["T00-001", "T00-002"]
        [("T00-001", [(TaskStatus.completed, 1)])]).currentTask = none ∧
    (runSession ["T00-001", "T00-002"]
        [("T00-001", [(TaskStatus.completed, 1)])]).pendingTasks =
      (["T00-001", "T00-002"] : List String).filter
        (fun i => i ∉ ([("T00-001", [(TaskStatus.completed, 1)])].map
          Prod.fst)) ∧
    (runSession ["T00-001", "T00-002"]
        [("T00-001", [(TaskStatus.completed, 1)])]).completedTasks.Nodup ∧
    completedCheckpointCount (runSession ["T00-001", "T00-002"]
        [("T00-001", [(TaskStatus.completed, 1)])]) "T00-001" ≤ 1) := by
  have h := runSession_partition ["T00-001", "T00-002"]
    [("T00-001", [(TaskStatus.completed, 1)])]
    (by decide) (by decide) (by decide) (by decide)
  exact ⟨⟨by decide, by decide⟩, h.1, h.2.1, h.2.2.2.1, h.2.2.2.2 "T00-001"⟩

/-! ## Claim C7: groundwork on the task map and the fold over
dependencies -/

theorem taskLookup_some (tasks : List Task) (a : String) (t : Task)
    (h : taskLookup tasks a = some t) : t ∈ tasks ∧ t.id = a := by
  unfold taskLookup at h
  refine ⟨List.mem_reverse.mp (List.mem_of_find?_eq_some h), ?_⟩
  have hp := List.find?_some h
  simpa using hp

theorem taskLookup_none (tasks : List Task) (a : String)
    (h : taskLookup tasks a = none) : ∀ t ∈ tasks, t.id ≠ a := by
  unfold taskLookup at h
  intro t ht
  have := List.find?_eq_none.mp h t (List.mem_reverse.mpr ht)
  simpa using this

theorem depEdge_is_task_id (tasks : List Task) (a b : String)
    (h : depEdge tasks a b) : a ∈ tasks.map Task.id := by
  obtain ⟨t, ht, rfl, _⟩ := h
  exact List.mem_map_of_mem Task.id ht

/-- With unique ids, every outgoing edge of `a` is an edge of the task
`taskMap` resolves for `a`. -/
theorem depEdge_lookup (tasks : List Task)
    (hnd : (tasks.map Task.id).Nodup) (a b : String)
    (h : depEdge tasks a b) :
    ∃ t, taskLookup tasks a = some t ∧ b ∈ t.dependencies := by
  obtain ⟨t, ht, hid, hb⟩ := h
  rcases hl : taskLookup tasks a with _ | u
  · exact absurd hid (taskLookup_none tasks a hl t ht)
  · obtain ⟨hu, hui⟩ := taskLookup_some tasks a u hl
    have htu : t = u :=
      List.inj_on_of_nodup_map hnd ht hu (by rw [hid, hui])
    exact ⟨u, rfl, htu ▸ hb⟩

theorem foldlM_sched_nil {α β : Type} (g : β → α → Except SchedulerErr β)
    (b : β) : ([] : List α).foldlM g b = .ok b :=
  rfl

theorem foldlM_sched_cons {α β : Type} (g : β → α → Except SchedulerErr β)
    (a : α) (l : List α) (b : β) :
    (a :: l).foldlM g b =
      match g b a with
      | .error e => .error e
      | .ok c => l.foldlM g c := by
  rw [List.foldlM_cons]
  rcases g b a with e | c <;> rfl

theorem foldlM_sched_error {α β : Type} (g : β → α → Except SchedulerErr β) :
    ∀ (l : List α) (b : β) (e : SchedulerErr),
    l.foldlM g b = .error e → ∃ a ∈ l, ∃ c, g c a = .error e := by
  intro l
  induction l with
  | nil =>
    intro b e h
    rw [foldlM_sched_nil] at h
    cases h
  | cons a l ih =>
    intro b e h
    rw [foldlM_sched_cons] at h
    rcases hg : g b a with e' | c <;> rw [hg] at h
    · cases h
      exact ⟨a, List.mem_cons_self a l, b, hg⟩
    · obtain ⟨x, hx, c', hc'⟩ := ih c e h
      exact ⟨x, List.mem_cons_of_mem a hx, c', hc'⟩

theorem foldlM_sched_ok_chain {α β : Type} (g : β → α → Except SchedulerErr β)
    (R : β → β → Prop) (hrefl : ∀ b, R b b)
    (htrans : ∀ a b c, R a b → R b c → R a c)
    (hg : ∀ a b c, g b a = .ok c → R b c) :
    ∀ (l : List α) (b c : β), l.foldlM g b = .ok c → R b c := by
  intro l
  induction l with
  | nil =>
    intro b c h
    rw [foldlM_sched_nil] at h
    cases h
    exact hrefl b
  | cons a l ih =>
    intro b c h
    rw [foldlM_sched_cons] at h
    rcases hga : g b a with e | d <;> rw [hga] at h
    · cases h
    · exact htrans _ _ _ (hg a b d hga) (ih d c h)

theorem dfs_zero (tasks : List Task) (x : String)
    (path stack visited : List String) :
    dfs tasks 0 x path stack visited = .error .fuelExhausted :=
  rfl

theorem dfs_succ (tasks : List Task) (fuel : Nat) (x : String)
    (path stack visited : List String) :
    dfs tasks (fuel + 1) x path stack visited =
      if stack.contains x then .error (.circular (path ++ [x]))
      else if visited.contains x then .ok visited
      else
        match taskLookup tasks x with
        | none => .ok (visited ++ [x])
        | some task =>
          task.dependencies.foldlM
            (fun vis dep => dfs tasks fuel dep (path ++ [x])
              (stack ++ [x]) vis)
            (visited ++ [x]) :=
  rfl

/-- Success of `dfs` only grows the visited set. -/
theorem dfs_mono (tasks : List Task) :
    ∀ (fuel : Nat) (x : String) (path stack visited visited' : List String),
    dfs tasks fuel x path stack visited = .ok visited' →
    ∀ i ∈ visited, i ∈ visited' := by
  intro fuel
  induction fuel with
  | zero =>
    intro x path stack v v' h
    rw [dfs_zero] at h
    cases h
  | succ fuel ih =>
    intro x path stack v v' h
    rw [dfs_succ] at h
    by_cases hs : stack.contains x
    · rw [if_pos hs] at h
      cases h
    · rw [if_neg hs] at h
      by_cases hv : v.contains x
      · rw [if_pos hv] at h
        cases h
        exact fun i hi => hi
      · rw [if_neg hv] at h
        rcases hl : taskLookup tasks x with _ | task <;> rw [hl] at h
        · cases h
          exact fun i hi => List.mem_append_left _ hi
        · intro i hi
          exact foldlM_sched_ok_chain _ (fun a b => ∀ j ∈ a, j ∈ b)
            (fun b j hj => hj) (fun a b c hab hbc j hj => hbc j (hab j hj))
            (fun d w w' hd => ih d (path ++ [x]) (stack ++ [x]) w w' hd)
            task.dependencies (v ++ [x]) v' h i (List.mem_append_left _ hi)

theorem chain_concat_transGen (E : String → String → Prop) :
    ∀ (l : List String) (x y : String), List.Chain' E (x :: l ++ [y]) →
    Relation.TransGen E x y := by
  intro l
  induction l with
  | nil =>
    intro x y h
    exact Relation.TransGen.single (List.chain'_cons.mp h).1
  | cons a l ih =>
    intro x y h
    have h' := List.chain'_cons.mp h
    exact Relation.TransGen.head h'.1 (ih a y h'.2)

/-- A revisit of an in-stack node closes a cycle: if the walked path is an
edge chain and its endpoint already occurs inside it, that endpoint lies
on a dependency cycle. -/
theorem chain_mem_self_cycle (E : String → String → Prop)
    (path : List String) (x : String)
    (hchain : List.Chain' E (path ++ [x])) (hx : x ∈ path) :
    Relation.TransGen E x x := by
  obtain ⟨u, v, rfl⟩ := List.append_of_mem hx
  have hsuffix : List.Chain' E (x :: (v ++ [x])) := by
    refine List.Chain'.suffix hchain ⟨u, by simp⟩
  exact chain_concat_transGen E v x x hsuffix

/-- A `CircularDependency` error of `dfs` reports a path containing a node
that lies on a dependency cycle (the recursion stack equals the printed
path throughout, so the statement carries one list for both). -/
theorem dfs_circular_cycle (tasks : List Task) :
    ∀ (fuel : Nat) (x : String) (path visited : List String)
      (p : List String),
    dfs tasks fuel x path path visited = .error (.circular p) →
    List.Chain' (depEdge tasks) (path ++ [x]) →
    ∃ z ∈ p, Relation.TransGen (depEdge tasks) z z := by
  intro fuel
  induction fuel with
  | zero =>
    intro x path v p h _
    rw [dfs_zero] at h
    exact absurd h (by simp)
  | succ fuel ih =>
    intro x path v p h hchain
    rw [dfs_succ] at h
    by_cases hs : path.contains x
    · rw [if_pos hs] at h
      have hp : path ++ [x] = p := by
        injection h with h'
        injection h'
      refine ⟨x, ?_, ?_⟩
      · rw [← hp]
        exact List.mem_append_right _ (List.mem_singleton_self x)
      · exact chain_mem_self_cycle (depEdge tasks) path x hchain
          (by simpa using hs)
    · rw [if_neg hs] at h
      by_cases hv : v.contains x
      · rw [if_pos hv] at h
        cases h
      · rw [if_neg hv] at h
        rcases hl : taskLookup tasks x with _ | task <;> rw [hl] at h
        · cases h
        · obtain ⟨dep, hdep, vis, hcall⟩ :=
            foldlM_sched_error _ task.dependencies (v ++ [x]) _ h
          obtain ⟨htm, hti⟩ := taskLookup_some tasks x task hl
          have hedge : depEdge tasks x dep := ⟨task, htm, hti, hdep⟩
          have hchain' : List.Chain' (depEdge tasks) ((path ++ [x]) ++ [dep]) := by
            rw [List.chain'_append]
            refine ⟨hchain, List.chain'_singleton dep, ?_⟩
            intro a ha b hb
            rw [List.getLast?_concat] at ha
            rw [List.head?_cons] at hb
            cases ha
            cases hb
            exact hedge
          exact ih dep (path ++ [x]) vis p hcall hchain'

theorem foldlM_sched_error_chain {α β : Type}
    (g : β → α → Except SchedulerErr β) (R : β → β → Prop)
    (hrefl : ∀ b, R b b) (htrans : ∀ a b c, R a b → R b c → R a c)
    (hg : ∀ a b c, g b a = .ok c → R b c) :
    ∀ (l : List α) (b : β) (e : SchedulerErr),
    l.foldlM g b = .error e → ∃ a ∈ l, ∃ c, R b c ∧ g c a = .error e := by
  intro l
  induction l with
  | nil =>
    intro b e h
    rw [foldlM_sched_nil] at h
    cases h
  | cons a l ih =>
    intro b e h
    rw [foldlM_sched_cons] at h
    rcases hga : g b a with e' | d <;> rw [hga] at h
    · cases h
      exact ⟨a, List.mem_cons_self a l, b, hrefl b, hga⟩
    · obtain ⟨x, hx, c, hRc, hc⟩ := ih d e h
      exact ⟨x, List.mem_cons_of_mem a hx, c,
        htrans _ _ _ (hg a b d hga) hRc, hc⟩

/-- The unvisited part of the DFS universe. -/
def dfsMeasure (tasks : List Task) (visited : List String) : Nat :=
  ((dfsUniverse tasks).toFinset.filter (fun i => i ∉ visited)).card

theorem dfsMeasure_le (tasks : List Task) (v v' : List String)
    (h : ∀ i ∈ v, i ∈ v') :
    dfsMeasure tasks v' ≤ dfsMeasure tasks v := by
  refine Finset.card_le_card ?_
  intro a ha
  rw [Finset.mem_filter] at ha ⊢
  exact ⟨ha.1, fun hv => ha.2 (h a hv)⟩

theorem dfsMeasure_lt (tasks : List Task) (v : List String) (x : String)
    (hx : x ∈ dfsUniverse tasks) (hxv : x ∉ v) :
    dfsMeasure tasks (v ++ [x]) < dfsMeasure tasks v := by
  refine Finset.card_lt_card ?_
  constructor
  · intro a ha
    rw [Finset.mem_filter] at ha ⊢
    exact ⟨ha.1, fun hv => ha.2 (List.mem_append_left _ hv)⟩
  · intro hsup
    have hxmem : x ∈ (dfsUniverse tasks).toFinset.filter
        (fun i => i ∉ v) := by
      rw [Finset.mem_filter]
      exact ⟨List.mem_toFinset.mpr hx, hxv⟩
    have := hsup hxmem
    rw [Finset.mem_filter] at this
    exact this.2 (List.mem_append_right _ (List.mem_singleton_self x))

/-- With fuel exceeding the number of unvisited universe ids, `dfs` never
runs out of fuel. -/
theorem dfs_no_fuel_error (tasks : List Task) :
    ∀ (fuel : Nat) (x : String) (path stack visited : List String),
    x ∈ dfsUniverse tasks →
    dfsMeasure tasks visited < fuel →
    dfs tasks fuel x path stack visited ≠ .error .fuelExhausted := by
  intro fuel
  induction fuel with
  | zero =>
    intro x path stack v hx hm
    exact absurd hm (Nat.not_lt_zero _)
  | succ fuel ih =>
    intro x path stack v hx hm
    rw [dfs_succ]
    by_cases hs : stack.contains x
    · rw [if_pos hs]
      simp
    · rw [if_neg hs]
      by_cases hv : v.contains x
      · rw [if_pos hv]
        simp
      · rw [if_neg hv]
        rcases hl : taskLookup tasks x with _ | task
        · simp
        · intro h
          obtain ⟨dep, hdep, vis, hR, hcall⟩ :=
            foldlM_sched_error_chain _ (fun a b => ∀ j ∈ a, j ∈ b)
              (fun b j hj => hj)
              (fun a b c hab hbc j hj => hbc j (hab j hj))
              (fun d w w' hw => dfs_mono tasks fuel d (path ++ [x])
                (stack ++ [x]) w w' hw)
              task.dependencies (v ++ [x]) _ h
          obtain ⟨htm, _⟩ := taskLookup_some tasks x task hl
          have hdu : dep ∈ dfsUniverse tasks := by
            unfold dfsUniverse
            refine List.mem_append_right _ ?_
            exact List.mem_flatMap.mpr ⟨task, htm, hdep⟩
          have hxv : x ∉ v := by
            simpa using hv
          have hm1 : dfsMeasure tasks vis ≤ dfsMeasure tasks (v ++ [x]) :=
            dfsMeasure_le tasks (v ++ [x]) vis hR
          have hm2 : dfsMeasure tasks (v ++ [x]) < dfsMeasure tasks v :=
            dfsMeasure_lt tasks v x hx hxv
          have : dfsMeasure tasks vis < fuel := by omega
          exact ih dep (path ++ [x]) (stack ++ [x]) vis hdu this hcall

theorem reflTransGen_preserve {r : String → String → Prop}
    (P : String → Prop) (hcl : ∀ a, P a → ∀ b, r a b → P b) :
    ∀ a b, Relation.ReflTransGen r a b → P a → P b := by
  intro a b h
  induction h with
  | refl => exact id
  | tail h1 h2 ih =>
    intro hp
    exact hcl _ (ih hp) _ h2

/-- Soundness of the dependency fold inside `dfs`, parameterised by the
induction hypothesis at the child fuel level. -/
theorem dfsList_sound (tasks : List Task) (fuel : Nat)
    (IH : ∀ (y : String) (path stack vis vis' : List String),
      dfs tasks fuel y path stack vis = .ok vis' →
      BlackClosed tasks stack vis → BlackAcyclic tasks stack vis →
      y ∉ stack ∧ y ∈ vis' ∧ (∀ i ∈ vis, i ∈ vis') ∧
      (∀ w ∈ vis', w ∉ vis → w ∉ stack) ∧
      BlackClosed tasks stack vis' ∧ BlackAcyclic tasks stack vis') :
    ∀ (deps : List String) (path stack v v' : List String),
    deps.foldlM (fun vis dep => dfs tasks fuel dep path stack vis) v =
      .ok v' →
    BlackClosed tasks stack v → BlackAcyclic tasks stack v →
    (∀ i ∈ v, i ∈ v') ∧
    (∀ d ∈ deps, d ∈ v' ∧ d ∉ stack) ∧
    (∀ w ∈ v', w ∉ v → w ∉ stack) ∧
    BlackClosed tasks stack v' ∧ BlackAcyclic tasks stack v' := by
  intro deps
  induction deps with
  | nil =>
    intro path stack v v' h hB1 hB2
    rw [foldlM_sched_nil] at h
    cases h
    exact ⟨fun i hi => hi, by simp, fun w hw hw' => absurd hw hw', hB1, hB2⟩
  | cons d ds ih =>
    intro path stack v v' h hB1 hB2
    rw [foldlM_sched_cons] at h
    rcases hd : dfs tasks fuel d path stack v with e | v1 <;> rw [hd] at h
    · cases h
    · obtain ⟨q0, q1, q2, q4, q5, q6⟩ := IH d path stack v v1 hd hB1 hB2
      obtain ⟨r2, rdeps, r4, r5, r6⟩ := ih path stack v1 v' h q5 q6
      refine ⟨fun i hi => r2 i (q2 i hi), ?_, ?_, r5, r6⟩
      · intro e he
        rcases List.mem_cons.mp he with rfl | he
        · exact ⟨r2 e q1, q0⟩
        · exact rdeps e he
      · intro w hw hwv
        by_cases hw1 : w ∈ v1
        · exact q4 w hw1 hwv
        · exact r4 w hw hw1

/-- Soundness of a successful `dfs` run: with unique task ids, the visited
set only grows by off-stack nodes, stays closed under dependency edges,
and never absorbs a node lying on a dependency cycle. -/
theorem dfs_sound (tasks : List Task) (hnd : (tasks.map Task.id).Nodup) :
    ∀ (fuel : Nat) (x : String) (path stack visited visited' : List String),
    dfs tasks fuel x path stack visited = .ok visited' →
    BlackClosed tasks stack visited → BlackAcyclic tasks stack visited →
    x ∉ stack ∧ x ∈ visited' ∧ (∀ i ∈ visited, i ∈ visited') ∧
    (∀ w ∈ visited', w ∉ visited → w ∉ stack) ∧
    BlackClosed tasks stack visited' ∧ BlackAcyclic tasks stack visited' := by
  intro fuel
  induction fuel with
  | zero =>
    intro x path stack v v' h _ _
    rw [dfs_zero] at h
    cases h
  | succ fuel ihf =>
    intro x path stack v v' h hB1 hB2
    rw [dfs_succ] at h
    by_cases hs : stack.contains x
    · rw [if_pos hs] at h
      cases h
    · rw [if_neg hs] at h
      have hsx : x ∉ stack := by simpa using hs
      by_cases hv : v.contains x
      · rw [if_pos hv] at h
        cases h
        exact ⟨hsx, by simpa using hv, fun i hi => hi,
          fun w hw hw' => absurd hw hw', hB1, hB2⟩
      · rw [if_neg hv] at h
        have hvx : x ∉ v := by simpa using hv
        rcases hl : taskLookup tasks x with _ | task <;> rw [hl] at h
        · cases h
          have hnoedge : ∀ w, ¬ depEdge tasks x w := by
            intro w hw
            obtain ⟨t, htm, hti, _⟩ := hw
            exact taskLookup_none tasks x hl t htm hti
          refine ⟨hsx, List.mem_append_right _ (List.mem_singleton_self x),
            fun i hi => List.mem_append_left _ hi, ?_, ?_, ?_⟩
          · intro w hw hwv
            rcases List.mem_append.mp hw with hw | hw
            · exact absurd hw hwv
            · rw [List.mem_singleton] at hw
              subst hw
              exact hsx
          · intro u hu hus w hw
            rcases List.mem_append.mp hu with hu | hu
            · obtain ⟨h1, h2⟩ := hB1 u hu hus w hw
              exact ⟨List.mem_append_left _ h1, h2⟩
            · rw [List.mem_singleton] at hu
              subst hu
              exact absurd hw (hnoedge w)
          · intro u hu hus hcyc
            rcases List.mem_append.mp hu with hu | hu
            · exact hB2 u hu hus hcyc
            · rw [List.mem_singleton] at hu
              subst hu
              obtain ⟨b, he, _⟩ := Relation.TransGen.head'_iff.mp hcyc
              exact hnoedge _ he
        · obtain ⟨htm, hti⟩ := taskLookup_some tasks x task hl
          have hB1' : BlackClosed tasks (stack ++ [x]) (v ++ [x]) := by
            intro u hu hus w hw
            rcases List.mem_append.mp hu with hu | hu
            · have husk : u ∉ stack :=
                fun hmem => hus (List.mem_append_left _ hmem)
              obtain ⟨h1, h2⟩ := hB1 u hu husk w hw
              have hwx : w ≠ x := fun he => hvx (he ▸ h1)
              refine ⟨List.mem_append_left _ h1, ?_⟩
              intro hmem
              rcases List.mem_append.mp hmem with hm | hm
              · exact h2 hm
              · rw [List.mem_singleton] at hm
                exact hwx hm
            · rw [List.mem_singleton] at hu
              subst hu
              exact absurd
                (List.mem_append_right _ (List.mem_singleton_self _)) hus
          have hB2' : BlackAcyclic tasks (stack ++ [x]) (v ++ [x]) := by
            intro u hu hus
            rcases List.mem_append.mp hu with hu | hu
            · exact hB2 u hu (fun hmem => hus (List.mem_append_left _ hmem))
            · rw [List.mem_singleton] at hu
              subst hu
              exact absurd
                (List.mem_append_right _ (List.mem_singleton_self _)) hus
          obtain ⟨r2, rdeps, r4, r5, r6⟩ :=
            dfsList_sound tasks fuel ihf task.dependencies (path ++ [x])
              (stack ++ [x]) (v ++ [x]) v' h hB1' hB2'
          have hxin : x ∈ v' :=
            r2 x (List.mem_append_right _ (List.mem_singleton_self x))
          have hedge_dep : ∀ w, depEdge tasks x w → w ∈ task.dependencies := by
            intro w hw
            obtain ⟨t, hlt, hwdep⟩ := depEdge_lookup tasks hnd x w hw
            rw [hl] at hlt
            cases hlt
            exact hwdep
          refine ⟨hsx, hxin, fun i hi => r2 i (List.mem_append_left _ hi),
            ?_, ?_, ?_⟩
          · intro w hw hwv
            by_cases hw0 : w ∈ v ++ [x]
            · rcases List.mem_append.mp hw0 with hm | hm
              · exact absurd hm hwv
              · rw [List.mem_singleton] at hm
                subst hm
                exact hsx
            · intro hmem
              exact r4 w hw hw0 (List.mem_append_left _ hmem)
          · intro u hu hus w hw
            by_cases hux : u ∈ stack ++ [x]
            · have hux' : u = x := by
                rcases List.mem_append.mp hux with hm | hm
                · exact absurd hm hus
                · exact List.mem_singleton.mp hm
              subst hux'
              obtain ⟨hw1, hw2⟩ := rdeps w (hedge_dep w hw)
              exact ⟨hw1, fun hmem => hw2 (List.mem_append_left _ hmem)⟩
            · obtain ⟨hw1, hw2⟩ := r5 u hu hux w hw
              exact ⟨hw1, fun hmem => hw2 (List.mem_append_left _ hmem)⟩
          · intro u hu hus hcyc
            by_cases hux : u ∈ stack ++ [x]
            · have hux' : u = x := by
                rcases List.mem_append.mp hux with hm | hm
                · exact absurd hm hus
                · exact List.mem_singleton.mp hm
              subst hux'
              obtain ⟨b, he, hbu⟩ := Relation.TransGen.head'_iff.mp hcyc
              have hb := rdeps b (hedge_dep b he)
              have hreach := reflTransGen_preserve
                (fun a => a ∈ v' ∧ a ∉ stack ++ [u])
                (fun a ha c hc => r5 a ha.1 ha.2 c hc) b u hbu hb
              exact hreach.2
                (List.mem_append_right _ (List.mem_singleton_self u))
            · exact r6 u hu hux hcyc

/-- `dfs` only fails with a `CircularDependency` report or by running
out of fuel. -/
theorem dfs_error_kinds (tasks : List Task) :
    ∀ (fuel : Nat) (x : String) (path stack visited : List String)
      (e : SchedulerErr),
    dfs tasks fuel x path stack visited = .error e →
    (∃ p, e = .circular p) ∨ e = .fuelExhausted := by
  intro fuel
  induction fuel with
  | zero =>
    intro x path stack v e h
    rw [dfs_zero] at h
    cases h
    exact Or.inr rfl
  | succ fuel ih =>
    intro x path stack v e h
    rw [dfs_succ] at h
    by_cases hs : stack.contains x
    · rw [if_pos hs] at h
      cases h
      exact Or.inl ⟨path ++ [x], rfl⟩
    · rw [if_neg hs] at h
      by_cases hv : v.contains x
      · rw [if_pos hv] at h
        cases h
      · rw [if_neg hv] at h
        rcases hl : taskLookup tasks x with _ | task <;> rw [hl] at h
        · cases h
        · obtain ⟨dep, _, vis, hcall⟩ :=
            foldlM_sched_error _ task.dependencies (v ++ [x]) e h
          exact ih dep (path ++ [x]) (stack ++ [x]) vis e hcall

/-- The driver fold of `detectCircularDependencies` preserves the black
invariants with an empty stack and visits every processed task id. -/
theorem detectLoop_sound (tasks : List Task)
    (hnd : (tasks.map Task.id).Nodup) (fuel : Nat) :
    ∀ (ts : List Task) (v v' : List String),
    ts.foldlM (fun vis t => if vis.contains t.id then pure vis
      else dfs tasks fuel t.id [] [] vis) v = .ok v' →
    BlackClosed tasks [] v → BlackAcyclic tasks [] v →
    (∀ i ∈ v, i ∈ v') ∧ (∀ t ∈ ts, t.id ∈ v') ∧
    BlackClosed tasks [] v' ∧ BlackAcyclic tasks [] v' := by
  intro ts
  induction ts with
  | nil =>
    intro v v' h hB1 hB2
    rw [foldlM_sched_nil] at h
    cases h
    exact ⟨fun i hi => hi, by simp, hB1, hB2⟩
  | cons t ts ih =>
    intro v v' h hB1 hB2
    rw [foldlM_sched_cons] at h
    by_cases hc : v.contains t.id
    · rw [if_pos hc] at h
      obtain ⟨m2, mts, m5, m6⟩ := ih v v' h hB1 hB2
      exact ⟨m2, fun u hu => by
        rcases List.mem_cons.mp hu with rfl | hu
        · exact m2 _ (by simpa using hc)
        · exact mts u hu, m5, m6⟩
    · rw [if_neg hc] at h
      rcases hd : dfs tasks fuel t.id [] [] v with e | v1 <;> rw [hd] at h
      · cases h
      · obtain ⟨_, q1, q2, _, q5, q6⟩ :=
          dfs_sound tasks hnd fuel t.id [] [] v v1 hd hB1 hB2
        obtain ⟨m2, mts, m5, m6⟩ := ih v1 v' h q5 q6
        refine ⟨fun i hi => m2 i (q2 i hi), ?_, m5, m6⟩
        intro u hu
        rcases List.mem_cons.mp hu with rfl | hu
        · exact m2 _ q1
        · exact mts u hu

/-- A successful cycle check certifies that the dependency graph has no
cycle (given unique task ids). -/
theorem detectCircular_ok_acyclic (tasks : List Task)
    (hnd : (tasks.map Task.id).Nodup) (fuel : Nat) (visited : List String)
    (h : detectCircularDependencies tasks fuel = .ok visited) :
    ¬ hasCycle tasks := by
  unfold detectCircularDependencies at h
  obtain ⟨_, hall, _, hacyc⟩ :=
    detectLoop_sound tasks hnd fuel tasks [] visited h
      (fun v hv _ => absurd hv (List.not_mem_nil v))
      (fun v hv _ => absurd hv (List.not_mem_nil v))
  rintro ⟨z, hz⟩
  obtain ⟨b, he, _⟩ := Relation.TransGen.head'_iff.mp hz
  have hzid : z ∈ tasks.map Task.id := depEdge_is_task_id tasks z b he
  obtain ⟨t, ht, hti⟩ := List.mem_map.mp hzid
  have hzv : z ∈ visited := hti ▸ hall t ht
  exact hacyc z hzv (List.not_mem_nil z) hz

/-- A `CircularDependency` error of the cycle check reports a path with a
node on an actual dependency cycle. -/
theorem detectCircular_circular_cycle (tasks : List Task) (fuel : Nat)
    (p : List String)
    (h : detectCircularDependencies tasks fuel = .error (.circular p)) :
    ∃ z ∈ p, Relation.TransGen (depEdge tasks) z z := by
  unfold detectCircularDependencies at h
  obtain ⟨t, _, vis, hcall⟩ := foldlM_sched_error _ tasks [] _ h
  by_cases hc : vis.contains t.id
  · rw [if_pos hc] at hcall
    cases hcall
  · rw [if_neg hc] at hcall
    exact dfs_circular_cycle tasks fuel t.id [] vis p hcall
      (List.chain'_singleton t.id)

/-- With the fuel the scheduler supplies, the cycle check never runs out
of fuel. -/
theorem detectCircular_no_fuel_error (tasks : List Task) :
    detectCircularDependencies tasks (dfsFuel tasks) ≠
      .error .fuelExhausted := by
  unfold detectCircularDependencies
  intro h
  obtain ⟨t, ht, vis, hcall⟩ := foldlM_sched_error _ tasks [] _ h
  by_cases hc : vis.contains t.id
  · rw [if_pos hc] at hcall
    cases hcall
  · rw [if_neg hc] at hcall
    have hu : t.id ∈ dfsUniverse tasks :=
      List.mem_append_left _ (List.mem_map_of_mem Task.id ht)
    have hm : dfsMeasure tasks vis < dfsFuel tasks := by
      unfold dfsMeasure dfsFuel
      have h1 := Finset.card_filter_le (dfsUniverse tasks).toFinset
        (fun i => i ∉ vis)
      have h2 := (dfsUniverse tasks).toFinset_card_le
      omega
    exact dfs_no_fuel_error tasks (dfsFuel tasks) t.id [] [] vis hu hm hcall

/-- Every error of the cycle check at the supplied fuel is a
`CircularDependency`. -/
theorem detectCircular_error_is_circular (tasks : List Task)
    (e : SchedulerErr)
    (h : detectCircularDependencies tasks (dfsFuel tasks) = .error e) :
    ∃ p, e = .circular p := by
  have hk : (∃ p, e = .circular p) ∨ e = .fuelExhausted := by
    unfold detectCircularDependencies at h
    obtain ⟨t, _, vis, hcall⟩ := foldlM_sched_error _ tasks [] _ h
    by_cases hc : vis.contains t.id
    · rw [if_pos hc] at hcall
      cases hcall
    · rw [if_neg hc] at hcall
      exact dfs_error_kinds tasks (dfsFuel tasks) t.id [] [] vis e hcall
  rcases hk with hk | rfl
  · exact hk
  · exact absurd h (detectCircular_no_fuel_error tasks)

/-- The unknown-dependency scan returns `none` exactly when every
dependency of every task is a known id. -/
theorem firstUnknownDep_none_iff (ids : List String) (ts : List Task) :
    firstUnknownDep ids ts = none ↔
      ∀ t ∈ ts, ∀ d ∈ t.dependencies, d ∈ ids := by
  induction ts with
  | nil => simp [firstUnknownDep]
  | cons t ts ih =>
    simp only [firstUnknownDep]
    rcases hf : t.dependencies.find? (fun d => ¬ ids.contains d)
      with _ | d
    · have hall : ∀ d ∈ t.dependencies, d ∈ ids := by
        intro d hd
        have := List.find?_eq_none.mp hf d hd
        simpa using this
      constructor
      · intro h u hu
        rcases List.mem_cons.mp hu with rfl | hu
        · exact hall
        · exact ih.mp h u hu
      · intro h
        exact ih.mpr (fun u hu => h u (List.mem_cons_of_mem t hu))
    · constructor
      · intro h
        cases h
      · intro h
        exfalso
        have hd := List.mem_of_find?_eq_some hf
        have hp := List.find?_some hf
        have hp' : d ∉ ids := by simpa using hp
        exact hp' (h t (List.mem_cons_self t ts) d hd)

/-- When the unknown-dependency scan reports a pair, the named task is in
the list, it declares the named dependency, and that dependency is not a
known id. -/
theorem firstUnknownDep_some_props (ids : List String) (ts : List Task)
    (tid d : String) (h : firstUnknownDep ids ts = some (tid, d)) :
    (∃ t ∈ ts, t.id = tid ∧ d ∈ t.dependencies) ∧ d ∉ ids := by
  induction ts with
  | nil => simp [firstUnknownDep] at h
  | cons t ts ih =>
    simp only [firstUnknownDep] at h
    rcases hf : t.dependencies.find? (fun d => ¬ ids.contains d)
      with _ | d' <;> rw [hf] at h
    · obtain ⟨⟨u, hu, hi, hm⟩, hnot⟩ := ih h
      exact ⟨⟨u, List.mem_cons_of_mem t hu, hi, hm⟩, hnot⟩
    · injection h with h
      injection h with h1 h2
      subst h1
      rw [← h2]
      have hd := List.mem_of_find?_eq_some hf
      have hp := List.find?_some hf
      have hp' : d' ∉ ids := by simpa using hp
      exact ⟨⟨t, List.mem_cons_self t ts, rfl, hd⟩, hp'⟩

/-- C7: On an input with a dependency outside the id set,
`buildExecutionWaves` fails with `UnknownDependency` naming an offending
task and its missing dependency — even when the input is also cyclic,
since this validation runs first.  On an input whose task ids are unique
and whose dependencies are all present, a dependency cycle makes it fail
with `CircularDependency` reporting a path containing a node that lies on
an actual cycle. -/
theorem buildExecutionWaves_error_reporting (tasks : List Task) :
    ((∃ t ∈ tasks, ∃ d ∈ t.dependencies, d ∉ tasks.map Task.id) →
      ∃ tid d, buildExecutionWaves tasks = .error (.unknownDep tid d) ∧
        (∃ t ∈ tasks, t.id = tid ∧ d ∈ t.dependencies) ∧
        d ∉ tasks.map Task.id) ∧
    ((tasks.map Task.id).Nodup →
      (∀ t ∈ tasks, ∀ d ∈ t.dependencies, d ∈ tasks.map Task.id) →
      hasCycle tasks →
      ∃ p, buildExecutionWaves tasks = .error (.circular p) ∧
        ∃ z ∈ p, Relation.TransGen (depEdge tasks) z z) := by
  constructor
  · rintro ⟨t, ht, d0, hd0, hm0⟩
    have hne : tasks ≠ [] := by
      intro h; subst h; exact absurd ht (List.not_mem_nil t)
    rcases hu : firstUnknownDep (tasks.map Task.id) tasks with _ | ⟨tid, d⟩
    · exact absurd ((firstUnknownDep_none_iff _ _).mp hu t ht d0 hd0) hm0
    · obtain ⟨hwit, hnot⟩ := firstUnknownDep_some_props _ _ _ _ hu
      refine ⟨tid, d, ?_, hwit, hnot⟩
      unfold buildExecutionWaves
      rw [if_neg (by simpa [List.isEmpty_iff] using hne), hu]
  · intro hnd hpres hcyc
    have hne : tasks ≠ [] := by
      intro h
      subst h
      obtain ⟨z, hz⟩ := hcyc
      obtain ⟨b, he, _⟩ := Relation.TransGen.head'_iff.mp hz
      obtain ⟨t, ht, _⟩ := he
      exact absurd ht (List.not_mem_nil t)
    have hu : firstUnknownDep (tasks.map Task.id) tasks = none :=
      (firstUnknownDep_none_iff _ _).mpr hpres
    rcases hdet : detectCircularDependencies tasks (dfsFuel tasks)
      with e | vis
    · obtain ⟨p, rfl⟩ := detectCircular_error_is_circular tasks e hdet
      refine ⟨p, ?_, detectCircular_circular_cycle tasks _ p hdet⟩
      unfold buildExecutionWaves
      rw [if_neg (by simpa [List.isEmpty_iff] using hne), hu, hdet]
    · exact absurd hcyc
        (detectCircular_ok_acyclic tasks hnd (dfsFuel tasks) vis hdet)

/-- Witness for C7: the missing-dependency half on `xmDemo` and the cycle
half on `cycleDemo`, each at its concrete input. -/
theorem buildExecutionWaves_error_reporting_witness :
    (∃ tid d, buildExecutionWaves xmDemo = .error (.unknownDep tid d) ∧
      (∃ t ∈ xmDemo, t.id = tid ∧ d ∈ t.dependencies) ∧
      d ∉ xmDemo.map Task.id) ∧
    (∃ p, buildExecutionWaves cycleDemo = .error (.circular p) ∧
      ∃ z ∈ p, Relation.TransGen (depEdge cycleDemo) z z) := by
  constructor
  · exact (buildExecutionWaves_error_reporting xmDemo).1
      ⟨{ id := "X", dependencies := ["Y", "M"] }, by decide, "M",
        by decide, by decide⟩
  · refine (buildExecutionWaves_error_reporting cycleDemo).2
      (by decide) (by decide) ⟨"X", ?_⟩
    exact Relation.TransGen.head
      ⟨{ id := "X", dependencies := ["Y"] }, by decide, rfl, by decide⟩
      (Relation.TransGen.single
        ⟨{ id := "Y", dependencies := ["X"] }, by decide, rfl, by decide⟩)

/-- Unfolding equation of `buildWavesGo` at fuel `0`. -/
theorem buildWavesGo_zero (rem : List Task) (ac : List String) :
    buildWavesGo 0 rem ac =
      if rem.isEmpty then .ok [] else .error .fuelExhausted := rfl

/-- Unfolding equation of `buildWavesGo` at successor fuel. -/
theorem buildWavesGo_succ (fuel : Nat) (rem : List Task)
    (ac : List String) :
    buildWavesGo (fuel + 1) rem ac =
      if rem.isEmpty then .ok []
      else
        if (rem.foldr (sweepStep ac) ([], [])).2.isEmpty then
          .error (.unschedulable (rem.map Task.id))
        else
          match buildWavesGo fuel
              (rem.foldr (sweepStep ac) ([], [])).1
              (ac ++
                ((rem.foldr (sweepStep ac) ([], [])).2.map Task.id)) with
          | .error e => .error e
          | .ok waves =>
            .ok ((rem.foldr (sweepStep ac) ([], [])).2 :: waves) := rfl

/-- Unfolding equation of `groupLoop` on the empty group list. -/
theorem groupLoop_nil (tasks : List Task) (c : List String) :
    groupLoop tasks [] c = .ok [] := rfl

/-- Unfolding equation of `groupLoop` on a group cons. -/
theorem groupLoop_cons (tasks : List Task) (g : Nat) (gs : List Nat)
    (c : List String) :
    groupLoop tasks (g :: gs) c =
      match buildWavesWithDependencies
          (tasks.filter (fun t => t.parallelGroup = g)) c with
      | .error e => .error e
      | .ok waves =>
        match groupLoop tasks gs (c ++ (waves.flatten.map Task.id)) with
        | .error e => .error e
        | .ok rest => .ok (waves ++ rest) := rfl

/-- Closed form of the backwards eligibility sweep: the untouched
remainder is the unsatisfied tasks in order, and the wave is the
satisfied tasks in reverse order. -/
theorem sweep_eq (ac : List String) (rem : List Task) :
    rem.foldr (sweepStep ac) ([], []) =
      (rem.filter (fun t => !(depsSatisfied ac t)),
       (rem.filter (depsSatisfied ac)).reverse) := by
  induction rem with
  | nil => rfl
  | cons t rem ih =>
    rw [List.foldr_cons, ih]
    unfold sweepStep
    by_cases h : depsSatisfied ac t
    · rw [if_pos h]
      simp [List.filter_cons, h]
    · rw [if_neg (by simpa using h)]
      simp [List.filter_cons, h]

/-- `buildWavesGo` with enough fuel: on success the waves partition the
remaining tasks (as a permutation of their concatenation), respect the
accumulated completed set, and are nonempty. -/
theorem buildWavesGo_spec :
    ∀ (fuel : Nat) (rem : List Task) (ac : List String)
      (waves : List (List Task)),
    rem.length ≤ fuel →
    buildWavesGo fuel rem ac = .ok waves →
    waves.flatten.Perm rem ∧ WavesDepsOK ac waves ∧
    ∀ w ∈ waves, w ≠ [] := by
  intro fuel
  induction fuel with
  | zero =>
    intro rem ac waves hlen hok
    have hre : rem = [] := List.length_eq_zero.mp (Nat.le_zero.mp hlen)
    subst hre
    rw [buildWavesGo_zero] at hok
    simp only [List.isEmpty_nil, if_true] at hok
    cases hok
    exact ⟨List.Perm.refl _, trivial, by simp⟩
  | succ fuel ih =>
    intro rem ac waves hlen hok
    rw [buildWavesGo_succ] at hok
    by_cases hre : rem.isEmpty
    · rw [if_pos hre] at hok
      cases hok
      have : rem = [] := List.isEmpty_iff.mp hre
      subst this
      exact ⟨List.Perm.refl _, trivial, by simp⟩
    · rw [if_neg hre, sweep_eq] at hok
      dsimp only at hok
      by_cases hw : ((rem.filter (depsSatisfied ac)).reverse).isEmpty
      · rw [if_pos hw] at hok
        cases hok
      · rw [if_neg hw] at hok
        rcases hrec : buildWavesGo fuel
            (rem.filter (fun t => !(depsSatisfied ac t)))
            (ac ++ ((rem.filter (depsSatisfied ac)).reverse.map Task.id))
          with e | ws <;> rw [hrec] at hok
        · cases hok
        · cases hok
          have hfilne : rem.filter (depsSatisfied ac) ≠ [] := by
            intro h
            exact absurd (by simp [h]) hw
          have hlenf :
              (rem.filter (fun t => !(depsSatisfied ac t))).length ≤
                fuel := by
            have hplen : 0 < (rem.filter (depsSatisfied ac)).length :=
              List.length_pos.mpr hfilne
            have hsum :=
              (List.filter_append_perm (depsSatisfied ac) rem).length_eq
            rw [List.length_append] at hsum
            omega
          obtain ⟨ihp, ihd, ihne⟩ := ih _ _ _ hlenf hrec
          refine ⟨?_, ?_, ?_⟩
          · rw [List.flatten_cons]
            exact ((List.Perm.append_left _ ihp).trans
              (List.Perm.append_right _ (List.reverse_perm _))).trans
              (List.filter_append_perm (depsSatisfied ac) rem)
          · refine ⟨?_, ihd⟩
            intro t ht d hd
            have ht' : t ∈ rem.filter (depsSatisfied ac) :=
              List.mem_reverse.mp ht
            have hpt : depsSatisfied ac t := List.of_mem_filter ht'
            unfold depsSatisfied at hpt
            have := List.all_eq_true.mp hpt d hd
            simpa using this
          · intro w hw'
            rcases List.mem_cons.mp hw' with rfl | hw'
            · intro h
              exact absurd (by simp [h]) hw
            · exact ihne w hw'

/-- Concatenating wave sequences preserves dependency soundness when the
second sequence starts from the completed set the first one produces. -/
theorem WavesDepsOK_append :
    ∀ (l1 : List (List Task)) (c : List String) (l2 : List (List Task)),
    WavesDepsOK c l1 → WavesDepsOK (c ++ l1.flatten.map Task.id) l2 →
    WavesDepsOK c (l1 ++ l2) := by
  intro l1
  induction l1 with
  | nil =>
    intro c l2 _ h2
    simpa using h2
  | cons w l1 ih =>
    intro c l2 h1 h2
    refine ⟨h1.1, ?_⟩
    apply ih (c ++ w.map Task.id) l2 h1.2
    simp only [List.flatten_cons, List.map_append,
      ← List.append_assoc] at h2
    exact h2

/-- The per-group loop on success: the produced waves are a permutation
of the concatenation of the per-group filters and respect the starting
completed set. -/
theorem groupLoop_spec (tasks : List Task) :
    ∀ (gs : List Nat) (completed : List String)
      (waves : List (List Task)),
    groupLoop tasks gs completed = .ok waves →
    waves.flatten.Perm
      ((gs.map (fun g =>
        tasks.filter (fun t => t.parallelGroup = g))).flatten) ∧
    WavesDepsOK completed waves := by
  intro gs
  induction gs with
  | nil =>
    intro completed waves h
    rw [groupLoop_nil] at h
    cases h
    exact ⟨by simp, trivial⟩
  | cons g gs ih =>
    intro completed waves h
    rw [groupLoop_cons] at h
    rcases h1 : buildWavesWithDependencies
        (tasks.filter (fun t => t.parallelGroup = g)) completed
      with e | wg <;> rw [h1] at h <;> dsimp only at h
    · cases h
    · rcases h2 : groupLoop tasks gs
          (completed ++ (wg.flatten.map Task.id)) with e | rest <;>
        rw [h2] at h
      · cases h
      · cases h
        unfold buildWavesWithDependencies at h1
        obtain ⟨hperm1, hdeps1, -⟩ :=
          buildWavesGo_spec _ _ _ _ (Nat.le_refl _) h1
        obtain ⟨hperm2, hdeps2⟩ := ih _ _ h2
        constructor
        · rw [List.flatten_append, List.map_cons, List.flatten_cons]
          exact List.Perm.append hperm1 hperm2
        · exact WavesDepsOK_append wg completed rest hdeps1 hdeps2

/-- Filtering a task list by each group of a duplicate-free covering
group list and concatenating yields a permutation of the list. -/
theorem filter_groups_perm :
    ∀ (gs : List Nat) (tasks : List Task), gs.Nodup →
    (∀ t ∈ tasks, t.parallelGroup ∈ gs) →
    ((gs.map (fun g =>
      tasks.filter (fun t => t.parallelGroup = g))).flatten).Perm tasks := by
  intro gs
  induction gs with
  | nil =>
    intro tasks _ hcov
    have : tasks = [] := by
      cases tasks with
      | nil => rfl
      | cons t ts =>
        exact absurd (hcov t (List.mem_cons_self t ts))
          (List.not_mem_nil _)
    subst this
    simp
  | cons g gs ih =>
    intro tasks hnd hcov
    rw [List.map_cons, List.flatten_cons]
    have hg : g ∉ gs := (List.nodup_cons.mp hnd).1
    have hnd' := (List.nodup_cons.mp hnd).2
    have hmap :
        gs.map (fun g2 => tasks.filter (fun t => t.parallelGroup = g2)) =
        gs.map (fun g2 =>
          (tasks.filter (fun t => !(t.parallelGroup = g))).filter
            (fun t => t.parallelGroup = g2)) := by
      apply List.map_congr_left
      intro g2 hg2
      rw [List.filter_filter]
      apply List.filter_congr
      intro t ht
      by_cases h : t.parallelGroup = g2
      · have hgg : ¬ g2 = g := by
          intro h2
          exact hg (h2 ▸ hg2)
        have hne : ¬ (t.parallelGroup = g) := by
          rw [h]
          exact hgg
        simp [h, hne, hgg]
      · simp [h]
    rw [hmap]
    have hcov' : ∀ t ∈ tasks.filter (fun t => !(t.parallelGroup = g)),
        t.parallelGroup ∈ gs := by
      intro t ht
      have hmem := List.mem_of_mem_filter ht
      have hne : ¬ (t.parallelGroup = g) := by
        have := List.of_mem_filter ht
        simpa using this
      rcases List.mem_cons.mp (hcov t hmem) with h | h
      · exact absurd h hne
      · exact h
    have hperm' := ih (tasks.filter (fun t => !(t.parallelGroup = g)))
      hnd' hcov'
    exact (List.Perm.append_left _ hperm').trans
      (List.filter_append_perm (fun t => t.parallelGroup = g) tasks)

/-- Decomposing a dependency-sound wave sequence at any wave: its tasks'
dependencies lie in the starting completed set or in earlier waves. -/
theorem WavesDepsOK_decomp :
    ∀ (pre : List (List Task)) (completed : List String)
      (w : List Task) (post : List (List Task)),
    WavesDepsOK completed (pre ++ w :: post) →
    ∀ t ∈ w, ∀ d ∈ t.dependencies,
      d ∈ completed ++ pre.flatten.map Task.id := by
  intro pre
  induction pre with
  | nil =>
    intro completed w post h t ht d hd
    simpa using h.1 t ht d hd
  | cons w0 pre ih =>
    intro completed w post h t ht d hd
    have := ih (completed ++ w0.map Task.id) w post h.2 t ht d hd
    simp only [List.flatten_cons, List.map_append, ← List.append_assoc]
    exact this

/-- A duplicate-free concatenation makes the wave lists pairwise
disjoint. -/
theorem flatten_nodup_pairwise :
    ∀ (L : List (List Task)), L.flatten.Nodup →
    List.Pairwise (fun w1 w2 => ∀ t ∈ w1, t ∉ w2) L := by
  intro L
  induction L with
  | nil =>
    intro _
    exact List.Pairwise.nil
  | cons w L ih =>
    intro h
    rw [List.flatten_cons] at h
    obtain ⟨h1, h2, hdis⟩ := List.nodup_append.mp h
    refine List.Pairwise.cons ?_ (ih h2)
    intro w2 hw2 t ht ht2
    exact hdis ht (List.mem_flatten.mpr ⟨w2, hw2, ht2⟩)

/-- C1: If `buildExecutionWaves` succeeds on an input with unique task
ids, the waves' concatenation is a permutation of the input (union equal,
with pairwise disjoint waves), every dependency of a wave's task belongs
to a strictly earlier wave, and no dependency edge joins two tasks of the
same wave. -/
theorem buildExecutionWaves_partition (tasks : List Task)
    (hnd : (tasks.map Task.id).Nodup)
    (waves : List (List Task))
    (hok : buildExecutionWaves tasks = .ok waves) :
    waves.flatten.Perm tasks ∧
    List.Pairwise (fun w1 w2 => ∀ t ∈ w1, t ∉ w2) waves ∧
    (∀ pre w post, waves = pre ++ w :: post →
      ∀ t ∈ w, ∀ d ∈ t.dependencies, d ∈ pre.flatten.map Task.id) ∧
    (∀ w ∈ waves, ∀ t ∈ w, ∀ u ∈ w, u.id ∉ t.dependencies) := by
  unfold buildExecutionWaves at hok
  by_cases he : tasks.isEmpty
  · rw [if_pos he] at hok
    cases hok
    have : tasks = [] := List.isEmpty_iff.mp he
    subst this
    refine ⟨List.Perm.refl _, List.Pairwise.nil, ?_, by simp⟩
    intro pre w post habs t ht d hd
    obtain ⟨-, h2⟩ := List.append_eq_nil.mp habs.symm
    exact absurd h2 (List.cons_ne_nil w post)
  · rw [if_neg he] at hok
    rcases hu : firstUnknownDep (tasks.map Task.id) tasks
      with _ | p <;> rw [hu] at hok
    · rcases hdet : detectCircularDependencies tasks (dfsFuel tasks)
        with e | vis <;> rw [hdet] at hok
      · cases hok
      · obtain ⟨hperm0, hdeps⟩ := groupLoop_spec tasks _ [] waves hok
        have hgsnd :
            (((tasks.map Task.parallelGroup).dedup).insertionSort
              (· ≤ ·)).Nodup :=
          ((List.perm_insertionSort _ _).nodup_iff).mpr
            (List.nodup_dedup _)
        have hcov : ∀ t ∈ tasks, t.parallelGroup ∈
            ((tasks.map Task.parallelGroup).dedup).insertionSort
              (· ≤ ·) := by
          intro t ht
          exact ((List.perm_insertionSort _ _).mem_iff).mpr
            (List.mem_dedup.mpr
              (List.mem_map_of_mem Task.parallelGroup ht))
        have hperm : waves.flatten.Perm tasks :=
          hperm0.trans (filter_groups_perm _ tasks hgsnd hcov)
        have hdecomp : ∀ pre w post, waves = pre ++ w :: post →
            ∀ t ∈ w, ∀ d ∈ t.dependencies,
              d ∈ pre.flatten.map Task.id := by
          intro pre w post hweq t ht d hd
          have := WavesDepsOK_decomp pre [] w post (hweq ▸ hdeps) t ht d hd
          simpa using this
        have hidnd : (waves.flatten.map Task.id).Nodup :=
          ((hperm.map Task.id).nodup_iff).mpr hnd
        refine ⟨hperm,
          flatten_nodup_pairwise waves (hperm.nodup_iff.mpr hnd.of_map),
          hdecomp, ?_⟩
        intro w hw t ht u hu hd
        obtain ⟨pre, post, hweq⟩ := List.append_of_mem hw
        have h1 : u.id ∈ pre.flatten.map Task.id :=
          hdecomp pre w post hweq t ht u.id hd
        have h2 : u.id ∈ w.map Task.id := List.mem_map_of_mem Task.id hu
        have hsplit : waves.flatten.map Task.id =
            pre.flatten.map Task.id ++
              (w.map Task.id ++ post.flatten.map Task.id) := by
          rw [hweq]
          simp [List.flatten_append, List.flatten_cons,
            List.append_assoc]
        rw [hsplit] at hidnd
        obtain ⟨-, -, hdis⟩ := List.nodup_append.mp hidnd
        exact hdis h1 (List.mem_append_left _ h2)
    · cases hok

/-- Witness for C1: the diamond DAG `dagDemo` at its concrete waves. -/
theorem buildExecutionWaves_partition_witness :
    (dagDemo.map Task.id).Nodup ∧
    buildExecutionWaves dagDemo = .ok dagWaves ∧
    (dagWaves.flatten.Perm dagDemo ∧
     List.Pairwise (fun w1 w2 => ∀ t ∈ w1, t ∉ w2) dagWaves ∧
     (∀ pre w post, dagWaves = pre ++ w :: post →
       ∀ t ∈ w, ∀ d ∈ t.dependencies, d ∈ pre.flatten.map Task.id) ∧
     (∀ w ∈ dagWaves, ∀ t ∈ w, ∀ u ∈ w, u.id ∉ t.dependencies)) :=
  ⟨by decide, by rfl,
   buildExecutionWaves_partition dagDemo (by decide) dagWaves (by rfl)⟩

/-- Counterexample to C1 as stated: `crossDemo` is a valid DAG (unique
ids, every dependency present, no cycle), yet `buildExecutionWaves`
returns no waves at all — it fails with `UnschedulableTasks` because
`T00-002` sits in an earlier parallel group than its dependency. -/
theorem buildExecutionWaves_valid_dag_unschedulable :
    (crossDemo.map Task.id).Nodup ∧
    (∀ t ∈ crossDemo, ∀ d ∈ t.dependencies, d ∈ crossDemo.map Task.id) ∧
    ¬ hasCycle crossDemo ∧
    buildExecutionWaves crossDemo =
      .error (.unschedulable ["T00-002"]) := by
  refine ⟨by decide, by decide, ?_, by rfl⟩
  exact detectCircular_ok_acyclic crossDemo (by decide)
    (dfsFuel crossDemo) ["T00-001", "T00-002"] (by rfl)

/-- Counterexample to C7 as stated: `xmDemo` is a cyclic input
(`X → Y → X`), yet `buildExecutionWaves` raises `UnknownDependency`, not
`CircularDependency`, because the missing-dependency validation of `X`'s
dangling dependency `M` runs before cycle detection. -/
theorem buildExecutionWaves_cyclic_but_unknownDep :
    hasCycle xmDemo ∧
    buildExecutionWaves xmDemo = .error (.unknownDep "X" "M") := by
  constructor
  · refine ⟨"X", Relation.TransGen.head
      ⟨{ id := "X", dependencies := ["Y", "M"] }, by decide, rfl, by decide⟩
      (Relation.TransGen.single
        ⟨{ id := "Y", dependencies := ["X"] }, by decide, rfl, by decide⟩)⟩
  · rfl

end Atzentis
